import Mathlib

/-!
# Media type decomposition and recomposition

A shallow embedding of `mediatype_mutable.go`: the mutable media type
structure, its `FullType` reconstruction and the `splitTypes` parser, followed
by theorems about them.

Go strings are modelled as lists of characters.  The three separators are
ASCII, so splitting a UTF-8 string on one of them byte-wise (what
`strings.Split` does) and character-wise give the same pieces.  Indexing and
slicing are modelled as fallible operations (`none` stands for the run-time
panic of an index out of range), so that the absence of panics is a theorem
and not an assumption.
-/

namespace MediaType

/-- A Go string, as its sequence of characters. -/
abbrev Str := List Char

/-! ## Constants (the separators of the package)

The source file uses the three constants below and does not declare them. -/

/-- Modelled from the spec: the constant `MainSubSplitCharacter`, declared
outside the source file; the main/sub separator is `/`. -/
def MainSubSplitCharacter : Char := '/'

/-- Modelled from the spec: the constant `TreeSeparatorCharacter`, declared
outside the source file; the tree separator is `.`. -/
def TreeSeparatorCharacter : Char := '.'

/-- Modelled from the spec: the constant `SuffixCharacter`, declared outside the
source file; the suffix separator is `+`. -/
def SuffixCharacter : Char := '+'

/-! ## The library functions the source calls -/

/-- Puts a character in front of the first piece of a list of pieces. -/
def consFirst (c : Char) : List Str → List Str
  | [] => [[c]]
  | w :: ws => (c :: w) :: ws

/-- Go `strings.Split(s, sep)` for a separator of one character: the pieces of
`s` between the occurrences of `sep`; one more piece than there are
separators, hence `[""]` for the empty string. -/
def Split : Str → Char → List Str
  | [], _ => [[]]
  | c :: cs, sep => if c = sep then [] :: Split cs sep else consFirst c (Split cs sep)

/-- Go `strings.Join(elems, sep)` for a separator of one character. -/
def Join : List Str → Char → Str
  | [], _ => []
  | [a], _ => a
  | a :: b :: rest, sep => a ++ sep :: Join (b :: rest) sep

/-- Go index expression `a[i]`: `none` when `i` is out of range. -/
def index (a : List Str) (i : Int) : Option Str :=
  if 0 ≤ i then a.get? i.toNat else none

/-- Go slice expression `a[0:j]`: `none` when `j` is out of range. -/
def sliceTo (a : List Str) (j : Int) : Option (List Str) :=
  if 0 ≤ j ∧ j ≤ (a.length : Int) then some (a.take j.toNat) else none

/-! ## The data model -/

/-- The components of a media type (`MediaTypeMutable` in the source).  The
parameter map is kept as an association list. -/
structure MediaTypeMutable where
  Main : Str
  Tree : List Str
  Sub : Str
  Suf : Str
  Params : List (Str × Str)
deriving DecidableEq, Repr

/-- The zero value of the structure (`var mt MediaTypeMutable`). -/
def MediaTypeMutable.zero : MediaTypeMutable :=
  { Main := [], Tree := [], Sub := [], Suf := [], Params := [] }

/-! ## The operations -/

/-- `FullType` returns the normalized full type as a string. -/
def MediaTypeMutable.FullType (m : MediaTypeMutable) : Str :=
  let fullType : Str := []
  let fullType := fullType ++ m.Main
  let fullType :=
    if 0 < m.Tree.length ∨ [] ≠ m.Sub ∨ [] ≠ m.Suf then
      fullType ++ [MainSubSplitCharacter]
    else fullType
  let fullType :=
    if 0 < m.Tree.length then
      (fullType ++ Join m.Tree TreeSeparatorCharacter) ++ [TreeSeparatorCharacter]
    else fullType
  let fullType := fullType ++ m.Sub
  let fullType :=
    if [] ≠ m.Suf then fullType ++ (SuffixCharacter :: m.Suf) else fullType
  fullType

/-- The body of the `if 1 < len(mainSubSplit)` block of `splitTypes`. -/
def splitSub (mt : MediaTypeMutable) (mainSubSplit : List Str) : Option MediaTypeMutable :=
  (index mainSubSplit 1).bind fun second =>
  let subSuffixSplit := Split second SuffixCharacter
  (if 1 < subSuffixSplit.length then
      (index subSuffixSplit 1).map fun suf => { mt with Suf := suf }
    else some mt).bind fun mt =>
  (index subSuffixSplit 0).bind fun first =>
  let treeSubSplit := Split first TreeSeparatorCharacter
  let treeSubSplitLength : Int := treeSubSplit.length
  (index treeSubSplit (treeSubSplitLength - 1)).bind fun sub =>
  let mt := { mt with Sub := sub }
  if 1 < treeSubSplitLength then
    (sliceTo treeSubSplit (treeSubSplitLength - 1)).map fun tree => { mt with Tree := tree }
  else some mt

/-- `splitTypes` splits the full type string into parts and assigns those
values to a fresh structure.  `none` would be a panic. -/
def splitTypes (fullType : Str) : Option MediaTypeMutable :=
  let mt := MediaTypeMutable.zero
  let mainSubSplit := Split fullType MainSubSplitCharacter
  (index mainSubSplit 0).bind fun main =>
  let mt := { mt with Main := main }
  if 1 < mainSubSplit.length then splitSub mt mainSubSplit else some mt

/-! ## Vocabulary for stating the properties

These definitions do not come from the source: they name the pieces of text
the properties speak about, independently of `Split`. -/

/-- The text of `s` before the first occurrence of `sep` (all of `s` when
there is none). -/
def before (sep : Char) (s : Str) : Str :=
  s.takeWhile (fun c => decide (c ≠ sep))

/-- The text of `s` after the first occurrence of `sep` (empty when there is
none). -/
def after (sep : Char) (s : Str) : Str :=
  (s.dropWhile (fun c => decide (c ≠ sep))).drop 1

/-- The subtype portion of an input: its second `/`-segment, the text between
the first `/` and the next `/` (or the end). -/
def subtypePortion (s : Str) : Str :=
  before MainSubSplitCharacter (after MainSubSplitCharacter s)

/-- The text after the last occurrence of `sep` (all of `s` when there is
none). -/
def afterLast (sep : Char) (s : Str) : Str :=
  (before sep s.reverse).reverse

/-- A string that contains none of the three separators. -/
def SepFree (s : Str) : Prop :=
  MainSubSplitCharacter ∉ s ∧ TreeSeparatorCharacter ∉ s ∧ SuffixCharacter ∉ s

instance (s : Str) : Decidable (SepFree s) := by
  unfold SepFree; infer_instance

/-- The text `(tree-segment ".")*`: every segment followed by a `.`. -/
def treeText : List Str → Str
  | [] => []
  | t :: ts => t ++ TreeSeparatorCharacter :: treeText ts

/-- The text of a well-formed type string
`main "/" (tree-segment ".")* subtype ["+" suffix]`. -/
def wellFormedText (main : Str) (tree : List Str) (sub : Str) (suffix : Option Str) : Str :=
  main ++ [MainSubSplitCharacter] ++ treeText tree ++ sub
    ++ (match suffix with
        | none => []
        | some f => SuffixCharacter :: f)

/-- `Prefix` returns the prefix of the type's trees: `Tree[0]` behind the guard
`0 < len(m.Tree)`, else the empty string.  `none` would be a panic. -/
def MediaTypeMutable.Prefix (m : MediaTypeMutable) : Option Str :=
  if 0 < m.Tree.length then index m.Tree 0 else some []

/-- The reference definition of the full type string, in the words of the
specification: `main`; the main/sub separator if any of tree, sub and suffix is
non-trivial; every tree segment in order, each followed by the tree separator;
`sub`; and the suffix separator followed by `suffix` if the suffix is
non-empty. -/
def FullTypeReference (m : MediaTypeMutable) : Str :=
  m.Main
    ++ (if m.Tree ≠ [] ∨ m.Sub ≠ [] ∨ m.Suf ≠ [] then [MainSubSplitCharacter] else [])
    ++ treeText m.Tree
    ++ m.Sub
    ++ (if m.Suf ≠ [] then SuffixCharacter :: m.Suf else [])

/-! ## Memory: slices and maps behind references

For the snapshot taken by `Immutable`, the slice `Tree` and the map `Params`
are modelled as Go has them: a slice is a header pointing to a backing array
and a map is a reference to a map object.  Two headers with the same address
share their elements. -/

/-- A Go slice header: the address of the backing array, the length and the
capacity.  The `nil` slice has length and capacity zero. -/
structure SliceHeader where
  array : Nat
  len : Nat
  cap : Nat

/-- The heap: the backing arrays and the map objects by address, and the next
free address of each kind. -/
structure Heap where
  arrays : Nat → List Str
  nextArray : Nat
  maps : Nat → List (Str × Str)
  nextMap : Nat

/-- A `MediaTypeMutable` struct as it lies in memory: the strings by value, the
`Tree` slice header and the `Params` map reference (`none` is the `nil` map). -/
structure MutableCell where
  Main : Str
  Tree : SliceHeader
  Sub : Str
  Suf : Str
  Params : Option Nat

/-- The elements of a slice. -/
def Heap.readSlice (h : Heap) (sl : SliceHeader) : List Str :=
  (h.arrays sl.array).take sl.len

/-- The entries of a map (none for the `nil` map). -/
def Heap.readMap (h : Heap) : Option Nat → List (Str × Str)
  | none => []
  | some a => h.maps a

/-- The field values of a struct in memory. -/
def MutableCell.value (h : Heap) (c : MutableCell) : MediaTypeMutable :=
  { Main := c.Main, Tree := h.readSlice c.Tree, Sub := c.Sub, Suf := c.Suf,
    Params := h.readMap c.Params }

/-- The heap with the backing array at `a` replaced. -/
def Heap.writeArray (h : Heap) (a : Nat) (elems : List Str) : Heap :=
  { h with arrays := fun b => if b = a then elems else h.arrays b }

/-- The heap with the map object at `a` replaced. -/
def Heap.writeMap (h : Heap) (a : Nat) (entries : List (Str × Str)) : Heap :=
  { h with maps := fun b => if b = a then entries else h.maps b }

/-- The mutations of a mutable model: assigning `Main`, `Sub` or `Suf`,
`m.Tree[i] = x`, `m.Tree = append(m.Tree, x)`, `m.Params[k] = v` and
`delete(m.Params, k)`. -/
inductive Mutation where
  | setMain (x : Str)
  | setSub (x : Str)
  | setSuf (x : Str)
  | setTreeElem (i : Nat) (x : Str)
  | appendTree (x : Str)
  | setParam (k v : Str)
  | deleteParam (k : Str)

/-- One mutation of the struct `c` in the heap `h`, as Go executes it.  `none`
is a panic: an index out of range or an assignment into the `nil` map.
`append` writes in place while the capacity allows and moves the elements to
a new backing array otherwise. -/
def Mutation.apply (h : Heap) (c : MutableCell) : Mutation → Option (Heap × MutableCell)
  | .setMain x => some (h, { c with Main := x })
  | .setSub x => some (h, { c with Sub := x })
  | .setSuf x => some (h, { c with Suf := x })
  | .setTreeElem i x =>
    if i < c.Tree.len then
      some (h.writeArray c.Tree.array ((h.arrays c.Tree.array).set i x), c)
    else none
  | .appendTree x =>
    if c.Tree.len < c.Tree.cap then
      some (h.writeArray c.Tree.array ((h.arrays c.Tree.array).set c.Tree.len x),
        { c with Tree := { c.Tree with len := c.Tree.len + 1 } })
    else
      let newCap := 2 * c.Tree.cap + 1
      let elems := h.readSlice c.Tree ++ [x] ++ List.replicate (newCap - (c.Tree.len + 1)) []
      some ({ h.writeArray h.nextArray elems with nextArray := h.nextArray + 1 },
        { c with Tree := { array := h.nextArray, len := c.Tree.len + 1, cap := newCap } })
  | .setParam k v =>
    match c.Params with
    | none => none
    | some a => some (h.writeMap a ((k, v) :: (h.maps a).filter fun e => e.1 ≠ k), c)
  | .deleteParam k =>
    match c.Params with
    | none => some (h, c)
    | some a => some (h.writeMap a ((h.maps a).filter fun e => e.1 ≠ k), c)

/-- A sequence of mutations, one after the other. -/
def applyAll (h : Heap) (c : MutableCell) : List Mutation → Option (Heap × MutableCell)
  | [] => some (h, c)
  | op :: ops => (op.apply h c).bind fun r => applyAll r.1 r.2 ops

/-- Modelled from the spec: the type `MediaTypeImmutable`, declared outside the
source file.  A frozen snapshot with the same fields, holding its own tree
sequence and its own parameter mapping. -/
structure MediaTypeImmutable where
  main : Str
  tree : SliceHeader
  sub : Str
  suf : Str
  params : Nat

/-- Modelled from the spec: the function `NewImmutableAsContainer`, declared
outside the source file.  It takes the field values present at the moment of
conversion and deep-copies the tree sequence and the parameter mapping into a
new backing array and a new map object, aliasing neither container. -/
def NewImmutableAsContainer (h : Heap) (m : MutableCell) : Heap × MediaTypeImmutable :=
  let elems := h.readSlice m.Tree
  let entries := h.readMap m.Params
  ({ arrays := fun b => if b = h.nextArray then elems else h.arrays b,
     nextArray := h.nextArray + 1,
     maps := fun b => if b = h.nextMap then entries else h.maps b,
     nextMap := h.nextMap + 1 },
   { main := m.Main,
     tree := { array := h.nextArray, len := elems.length, cap := elems.length },
     sub := m.Sub, suf := m.Suf, params := h.nextMap })

/-- Modelled from the spec: the accessors of `MediaTypeImmutable`, declared
outside the source file (`MainType`, `Trees`, `SubType`, `Suffix` and
`Parameters`), gathered in one record; they return the field values of the
snapshot. -/
def MediaTypeImmutable.value (h : Heap) (s : MediaTypeImmutable) : MediaTypeMutable :=
  { Main := s.main, Tree := h.readSlice s.tree, Sub := s.sub, Suf := s.suf,
    Params := h.maps s.params }

/-- `Immutable` returns an immutable version of the structure.  The receiver is
passed by value: the call works on a copy of the struct whose slice header and
map reference are those of the caller. -/
def MutableCell.Immutable (h : Heap) (m : MutableCell) : Heap × MediaTypeImmutable :=
  NewImmutableAsContainer h m

/-- The references of a struct point into the allocated part of the heap, and
its slice is no longer than its capacity. -/
def WellFormed (h : Heap) (c : MutableCell) : Prop :=
  c.Tree.len ≤ c.Tree.cap
  ∧ (c.Tree.cap = 0 ∨ c.Tree.array < h.nextArray)
  ∧ ∀ a, c.Params = some a → a < h.nextMap

/-- A heap with one backing array of capacity two and one map object, for the
examples. -/
def exampleHeap : Heap :=
  { arrays := fun a => if a = 0 then ["vnd".toList, []] else [],
    nextArray := 1,
    maps := fun a => if a = 0 then [("charset".toList, "utf-8".toList)] else [],
    nextMap := 1 }

/-- A struct in `exampleHeap` with one tree segment and one parameter, for the
examples. -/
def exampleCell : MutableCell :=
  { Main := "application".toList, Tree := { array := 0, len := 1, cap := 2 },
    Sub := "text".toList, Suf := [], Params := some 0 }

/-- Mutations of every kind, with an append in place and an append that moves
the elements, for the examples. -/
def exampleMutations : List Mutation :=
  [.setMain "x".toList, .setTreeElem 0 "y".toList, .appendTree "z".toList,
   .appendTree "w".toList, .setSub "s".toList, .setSuf "f".toList,
   .setParam "a".toList "b".toList, .deleteParam "charset".toList]

/-! ## The formatter `String` calls

`String` hands the full type and the parameters to `mime.FormatMediaType` of
the Go standard library.  The function and its helpers follow the library:
the type and the parameter names are written in lower case, and when an
argument violates the standard the result is the empty string. -/

/-- Go `strings.Cut(s, sep)` for a separator of one character: the text before
and after the first `sep`, or `none` when `s` has no `sep`. -/
def Cut (s : Str) (sep : Char) : Option (Str × Str) :=
  if sep ∈ s then some (before sep s, after sep s) else none

/-- The characters `()<>@,;:\"/[]?=` (backslash is 92 and the double quote
is 34). -/
def tspecials : Str :=
  "()<>@,;:".toList ++ [Char.ofNat 92, Char.ofNat 34] ++ "/[]?=".toList

/-- Go `mime.isTSpecial`: whether the rune is in `tspecials` as defined by RFC
1521 and RFC 2045. -/
def isTSpecial (r : Char) : Bool :=
  decide (r ∈ tspecials)

/-- Go `mime.isTokenChar`: `r > 0x20 && r < 0x7f && !isTSpecial(r)`. -/
def isTokenChar (r : Char) : Bool :=
  decide (0x20 < r.toNat) && decide (r.toNat < 0x7f) && !isTSpecial r

/-- Go `mime.isToken`: a non-empty string of token characters. -/
def isToken (s : Str) : Bool :=
  if s = [] then false else s.all isTokenChar

/-- Go `strings.ToLower`, which the formatter applies to tokens only; a token
is ASCII, where lower-casing maps `A`-`Z` to `a`-`z`. -/
def ToLower (s : Str) : Str :=
  s.map Char.toLower

/-- Go `mime.needsEncoding`: some rune is outside the printable ASCII range
`' '`..`'~'` and is not a tab. -/
def needsEncoding (s : Str) : Bool :=
  s.any fun b => (decide (b.toNat < 0x20) || decide (0x7e < b.toNat)) && decide (b.toNat ≠ 9)

/-- The UTF-8 bytes of a character. -/
def utf8Bytes (c : Char) : List Nat :=
  let n := c.toNat
  if n < 0x80 then [n]
  else if n < 0x800 then [0xC0 + n / 64, 0x80 + n % 64]
  else if n < 0x10000 then [0xE0 + n / 4096, 0x80 + n / 64 % 64, 0x80 + n % 64]
  else [0xF0 + n / 262144, 0x80 + n / 4096 % 64, 0x80 + n / 64 % 64, 0x80 + n % 64]

/-- Go `mime.upperhex`. -/
def upperhex : Str := "0123456789ABCDEF".toList

/-- One byte of a value under the encoding of RFC 2231: a byte that is not an
attribute character (a space, a control, a byte from `0x7F` on, `*`, the
apostrophe, `%` or a tspecial) is written as `%` and two hexadecimal digits. -/
def percentEncodeByte (ch : Nat) : Str :=
  if ch ≤ 0x20 ∨ 0x7F ≤ ch ∨ ch = 42 ∨ ch = 39 ∨ ch = 37 ∨ isTSpecial (Char.ofNat ch) = true then
    ['%', upperhex.getD (ch / 16) '0', upperhex.getD (ch % 16) '0']
  else [Char.ofNat ch]

/-- The value under the encoding of RFC 2231, byte by byte. -/
def percentEncode (value : Str) : Str :=
  (value.flatMap utf8Bytes).flatMap percentEncodeByte

/-- The value as a quoted string: a backslash in front of every double quote
and backslash, within double quotes. -/
def quoteValue (value : Str) : Str :=
  [Char.ofNat 34]
    ++ value.flatMap (fun c =>
        if c = Char.ofNat 34 ∨ c = Char.ofNat 92 then [Char.ofNat 92, c] else [c])
    ++ [Char.ofNat 34]

/-- What the formatter writes after the name of a parameter: `*=utf-8` followed
by two apostrophes and the encoded value when the value needs encoding, else
`=` and the value itself when it is a token, else `=` and the quoted value. -/
def formatValue (value : Str) : Str :=
  if needsEncoding value then
    "*=utf-8".toList ++ [Char.ofNat 39, Char.ofNat 39] ++ percentEncode value
  else if isToken value then '=' :: value
  else '=' :: quoteValue value

/-- The order of `sort.Strings`: byte-wise lexicographic, which on UTF-8 is
lexicographic by code point. -/
def strLe : Str → Str → Bool
  | [], _ => true
  | _ :: _, [] => false
  | a :: as, b :: bs => decide (a < b) || (decide (a = b) && strLe as bs)

/-- Go `sort.Strings`: the strings in increasing order. -/
def sortStrings (l : List Str) : List Str :=
  l.insertionSort fun a b => strLe a b = true

/-- Go map lookup `param[attribute]`: the value at the key, or the empty string
when the key is absent. -/
def mapGet : List (Str × Str) → Str → Str
  | [], _ => []
  | (k, v) :: rest, name => if k = name then v else mapGet rest name

/-- The first part of `mime.FormatMediaType`: the type in lower case, or `none`
when it is not a token or two tokens around a `/`. -/
def formatType (t : Str) : Option Str :=
  match Cut t '/' with
  | none => if !isToken t then none else some (ToLower t)
  | some (major, sub) =>
    if !isToken major || !isToken sub then none
    else some (ToLower major ++ '/' :: ToLower sub)

/-- The loop of `mime.FormatMediaType` over the sorted parameter names: for
each one `; `, the name in lower case and the value; `none` as soon as a name
is not a token. -/
def formatParams (param : List (Str × Str)) : List Str → Option Str
  | [] => some []
  | name :: rest =>
    if !isToken name then none
    else (formatParams param rest).map fun out =>
      "; ".toList ++ ToLower name ++ formatValue (mapGet param name) ++ out

/-- The text `mime.FormatMediaType` builds when no argument violates the
standard, and `none` when one does. -/
def formatMediaTypeText (t : Str) (param : List (Str × Str)) : Option Str :=
  (formatType t).bind fun b =>
  (formatParams param (sortStrings (param.map Prod.fst))).map fun out => b ++ out

/-- Go `mime.FormatMediaType(t, param)`: the text built, or the empty string
when an argument violates the standard. -/
def FormatMediaType (t : Str) (param : List (Str × Str)) : Str :=
  (formatMediaTypeText t param).getD []

/-- `String` gets a string representation conforming to RFC 2045 and RFC
2616. -/
def MediaTypeMutable.String (m : MediaTypeMutable) : Str :=
  FormatMediaType m.FullType m.Params

/-- The text `; name=value` of one parameter, unquoted. -/
def paramText (p : Str × Str) : Str :=
  "; ".toList ++ p.1 ++ '=' :: p.2

/-- A string of token characters without upper-case letters (it may be
empty). -/
def LowerTokenChars (s : Str) : Prop :=
  ∀ c ∈ s, isTokenChar c = true ∧ c.toLower = c

instance (s : Str) : Decidable (LowerTokenChars s) := by
  unfold LowerTokenChars; infer_instance

/-- A type the formatter accepts: a token, or a token before the first `/` and
a token after it. -/
def LegalType (t : Str) : Prop :=
  if '/' ∈ t then isToken (before '/' t) = true ∧ isToken (after '/' t) = true
  else isToken t = true

instance (t : Str) : Decidable (LegalType t) := by
  unfold LegalType; infer_instance

/-- The text written for one parameter: `; `, the name in lower case and the
text of the value. -/
def paramOutput (p : Str × Str) : Str :=
  "; ".toList ++ ToLower p.1 ++ formatValue p.2

/-! ## Facts about `Split` and `Join` -/

theorem consFirst_cons (c : Char) (w : Str) (ws : List Str) :
    consFirst c (w :: ws) = (c :: w) :: ws := rfl

/-- `Split` never returns the empty list: it is a first piece and the rest. -/
theorem Split_eq_cons (s : Str) (sep : Char) :
    ∃ w ws, Split s sep = w :: ws := by
  induction s with
  | nil => exact ⟨[], [], rfl⟩
  | cons c cs ih =>
    obtain ⟨w, ws, h⟩ := ih
    by_cases hc : c = sep
    · exact ⟨[], Split cs sep, by simp [Split, hc]⟩
    · exact ⟨c :: w, ws, by simp [Split, hc, h, consFirst]⟩

theorem Split_ne_nil (s : Str) (sep : Char) : Split s sep ≠ [] := by
  obtain ⟨w, ws, h⟩ := Split_eq_cons s sep
  simp [h]

/-- A string without the separator is its own single piece. -/
theorem Split_of_not_mem (s : Str) (sep : Char) (h : sep ∉ s) : Split s sep = [s] := by
  induction s with
  | nil => rfl
  | cons c cs ih =>
    have hc : c ≠ sep := fun e => h (by simp [e])
    have hcs : sep ∉ cs := fun e => h (by simp [e])
    simp [Split, hc, ih hcs, consFirst]

/-- The first separator ends the first piece. -/
theorem Split_append_sep (a b : Str) (sep : Char) (h : sep ∉ a) :
    Split (a ++ sep :: b) sep = a :: Split b sep := by
  induction a with
  | nil => simp [Split]
  | cons c cs ih =>
    have hc : c ≠ sep := fun e => h (by simp [e])
    have hcs : sep ∉ cs := fun e => h (by simp [e])
    simp [Split, hc, ih hcs, consFirst]

/-- No piece contains the separator. -/
theorem not_mem_of_mem_Split (s : Str) (sep : Char) :
    ∀ w ∈ Split s sep, sep ∉ w := by
  induction s with
  | nil => intro w hw; simp [Split] at hw; simp [hw]
  | cons c cs ih =>
    obtain ⟨v, vs, hv⟩ := Split_eq_cons cs sep
    by_cases hc : c = sep
    · intro w hw
      simp only [Split, hc, if_true, List.mem_cons] at hw
      rcases hw with rfl | hw
      · simp
      · exact ih w hw
    · intro w hw
      simp only [Split, hc, if_false, hv, consFirst, List.mem_cons] at hw
      rcases hw with rfl | hw
      · have := ih v (by simp [hv])
        intro hm
        rcases List.mem_cons.1 hm with e | e
        · exact hc e.symm
        · exact this e
      · exact ih w (by simp [hv, hw])

/-- Joining the pieces with the separator gives the string back. -/
theorem Join_Split (s : Str) (sep : Char) : Join (Split s sep) sep = s := by
  induction s with
  | nil => rfl
  | cons c cs ih =>
    obtain ⟨v, vs, hv⟩ := Split_eq_cons cs sep
    by_cases hc : c = sep
    · simp only [Split, hc, if_true]
      rw [hv] at ih ⊢
      simp [Join, ih]
    · simp only [Split, hc, if_false, hv, consFirst]
      rw [hv] at ih
      cases vs with
      | nil => simpa [Join] using ih
      | cons u us => simp only [Join] at ih ⊢; simp [ih]

theorem Join_cons_cons (a b : Str) (rest : List Str) (sep : Char) :
    Join (a :: b :: rest) sep = a ++ sep :: Join (b :: rest) sep := rfl

/-- Splitting a joined list of separator-free pieces gives the pieces back. -/
theorem Split_Join (l : List Str) (sep : Char) (hl : l ≠ [])
    (h : ∀ w ∈ l, sep ∉ w) : Split (Join l sep) sep = l := by
  induction l with
  | nil => exact absurd rfl hl
  | cons a rest ih =>
    cases rest with
    | nil => simpa [Join] using Split_of_not_mem a sep (h a (by simp))
    | cons b rest =>
      rw [Join_cons_cons, Split_append_sep _ _ _ (h a (by simp)),
        ih (by simp) (fun w hw => h w (List.mem_cons_of_mem _ hw))]

/-- `Join` of a list with one more piece at the end. -/
theorem Join_append_singleton (l : List Str) (a : Str) (sep : Char) (hl : l ≠ []) :
    Join (l ++ [a]) sep = Join l sep ++ sep :: a := by
  induction l with
  | nil => exact absurd rfl hl
  | cons b rest ih =>
    cases rest with
    | nil => simp [Join]
    | cons c rest =>
      have := ih (by simp)
      simp only [List.cons_append, Join_cons_cons] at this ⊢
      simp [this]

/-- The first piece is the text before the first separator. -/
theorem Split_head (s : Str) (sep : Char) :
    (Split s sep).head? = some (s.takeWhile (fun c => decide (c ≠ sep))) := by
  induction s with
  | nil => rfl
  | cons c cs ih =>
    obtain ⟨v, vs, hv⟩ := Split_eq_cons cs sep
    by_cases hc : c = sep
    · simp [Split, hc]
    · rw [hv] at ih
      simp only [List.head?_cons, Option.some.injEq] at ih
      simp [Split, hc, hv, consFirst, List.takeWhile_cons, ih]

/-- The remaining pieces are the pieces of the text after the first
separator. -/
theorem Split_tail (s : Str) (sep : Char) (h : sep ∈ s) :
    (Split s sep).tail
      = Split ((s.dropWhile (fun c => decide (c ≠ sep))).drop 1) sep := by
  induction s with
  | nil => simp at h
  | cons c cs ih =>
    obtain ⟨v, vs, hv⟩ := Split_eq_cons cs sep
    by_cases hc : c = sep
    · simp [Split, hc]
    · have hcs : sep ∈ cs := by
        rcases List.mem_cons.1 h with e | e
        · exact absurd e.symm hc
        · exact e
      have := ih hcs
      rw [hv] at this
      simp only [List.tail_cons] at this
      simp [Split, hc, hv, consFirst, List.dropWhile_cons, this]

/-! ## Facts about indexing -/

theorem index_zero (a : Str) (l : List Str) : index (a :: l) 0 = some a := by
  simp [index]

theorem index_one (a b : Str) (l : List Str) : index (a :: b :: l) 1 = some b := by
  simp [index]

theorem index_last (l : List Str) (a : Str) :
    index (l ++ [a]) (((l ++ [a]).length : Int) - 1) = some a := by
  simp [index]

theorem sliceTo_init (l : List Str) (a : Str) :
    sliceTo (l ++ [a]) (((l ++ [a]).length : Int) - 1) = some l := by
  simp [sliceTo]

/-- Every split is a list of leading pieces and a last piece. -/
theorem Split_eq_append (s : Str) (sep : Char) :
    ∃ t last, Split s sep = t ++ [last] := by
  refine ⟨(Split s sep).dropLast, (Split s sep).getLast (Split_ne_nil s sep), ?_⟩
  exact (List.dropLast_append_getLast (Split_ne_nil s sep)).symm

/-! ## What `splitTypes` computes, from the three splits -/

/-- Without a second piece only `Main` is set. -/
theorem splitTypes_single (s M : Str) (h : Split s MainSubSplitCharacter = [M]) :
    splitTypes s = some { MediaTypeMutable.zero with Main := M } := by
  simp [splitTypes, h, index_zero]

/-- With a second piece `P`, whose `+`-split is `W :: F` and where the
`.`-split of `W` is `T ++ [S]`. -/
theorem splitTypes_parts (s M P W S : Str) (R F T : List Str)
    (h1 : Split s MainSubSplitCharacter = M :: P :: R)
    (h2 : Split P SuffixCharacter = W :: F)
    (h3 : Split W TreeSeparatorCharacter = T ++ [S]) :
    splitTypes s = some
      { Main := M, Tree := T, Sub := S, Suf := F.headD [], Params := [] } := by
  have hl := index_last T S
  have hs := sliceTo_init T S
  simp only [splitTypes, h1, index_zero, Option.some_bind, List.length_cons, splitSub,
    index_one, h2, h3, MediaTypeMutable.zero]
  rw [hl]
  cases F with
  | nil =>
    cases T with
    | nil => simp
    | cons t ts => rw [hs]; simp
  | cons f fs =>
    cases T with
    | nil => simp [index]
    | cons t ts => rw [hs]; simp [index]

/-- Input `M/W` where `W` has no `+`. -/
theorem splitTypes_plain (M W S : Str) (T : List Str)
    (hM : MainSubSplitCharacter ∉ M) (hW : MainSubSplitCharacter ∉ W)
    (hW2 : SuffixCharacter ∉ W) (h3 : Split W TreeSeparatorCharacter = T ++ [S]) :
    splitTypes (M ++ MainSubSplitCharacter :: W) = some
      { Main := M, Tree := T, Sub := S, Suf := [], Params := [] } := by
  have h1 : Split (M ++ MainSubSplitCharacter :: W) MainSubSplitCharacter = M :: W :: [] := by
    rw [Split_append_sep _ _ _ hM, Split_of_not_mem _ _ hW]
  exact splitTypes_parts _ M W W S [] [] T h1 (Split_of_not_mem _ _ hW2) h3

/-- Input `M/W+F` where `W` and `F` have no `+`. -/
theorem splitTypes_suffixed (M W F S : Str) (T : List Str)
    (hM : MainSubSplitCharacter ∉ M) (hW : MainSubSplitCharacter ∉ W)
    (hW2 : SuffixCharacter ∉ W) (hF : MainSubSplitCharacter ∉ F) (hF2 : SuffixCharacter ∉ F)
    (h3 : Split W TreeSeparatorCharacter = T ++ [S]) :
    splitTypes (M ++ MainSubSplitCharacter :: (W ++ SuffixCharacter :: F)) = some
      { Main := M, Tree := T, Sub := S, Suf := F, Params := [] } := by
  have hP : MainSubSplitCharacter ∉ W ++ SuffixCharacter :: F := by
    simp only [List.mem_append, List.mem_cons, not_or]
    exact ⟨hW, by decide, hF⟩
  have h1 : Split (M ++ MainSubSplitCharacter :: (W ++ SuffixCharacter :: F))
      MainSubSplitCharacter = M :: (W ++ SuffixCharacter :: F) :: [] := by
    rw [Split_append_sep _ _ _ hM, Split_of_not_mem _ _ hP]
  have h2 : Split (W ++ SuffixCharacter :: F) SuffixCharacter = W :: [F] := by
    rw [Split_append_sep _ _ _ hW2, Split_of_not_mem _ _ hF2]
  exact splitTypes_parts _ M _ W S [] [F] T h1 h2 h3

/-- A character of a joined list is the separator or a character of a piece. -/
theorem mem_Join (l : List Str) (sep c : Char) (h : c ∈ Join l sep) :
    c = sep ∨ ∃ w ∈ l, c ∈ w := by
  induction l with
  | nil => simp [Join] at h
  | cons a rest ih =>
    cases rest with
    | nil => exact Or.inr ⟨a, by simp, by simpa [Join] using h⟩
    | cons b rest =>
      rw [Join_cons_cons] at h
      rcases List.mem_append.1 h with h | h
      · exact Or.inr ⟨a, by simp, h⟩
      · rcases List.mem_cons.1 h with h | h
        · exact Or.inl h
        · rcases ih h with h | ⟨w, hw, hc⟩
          · exact Or.inl h
          · exact Or.inr ⟨w, List.mem_cons_of_mem _ hw, hc⟩

/-- A character that is not the separator and occurs in no piece does not
occur in the joined list. -/
theorem not_mem_Join (l : List Str) (sep c : Char) (hc : c ≠ sep)
    (h : ∀ w ∈ l, c ∉ w) : c ∉ Join l sep := by
  intro hm
  rcases mem_Join l sep c hm with e | ⟨w, hw, hcw⟩
  · exact hc e
  · exact h w hw hcw

/-! ## `Split` in terms of the text before and after the first separator -/

theorem before_cons_ne (sep c : Char) (cs : Str) (hc : c ≠ sep) :
    before sep (c :: cs) = c :: before sep cs := by
  simp [before, List.takeWhile_cons, hc]

theorem before_cons_self (sep : Char) (cs : Str) : before sep (sep :: cs) = [] := by
  simp [before, List.takeWhile_cons]

theorem after_cons_ne (sep c : Char) (cs : Str) (hc : c ≠ sep) :
    after sep (c :: cs) = after sep cs := by
  simp [after, List.dropWhile_cons, hc]

theorem after_cons_self (sep : Char) (cs : Str) : after sep (sep :: cs) = cs := by
  simp [after, List.dropWhile_cons]

theorem before_of_not_mem (sep : Char) (s : Str) (h : sep ∉ s) : before sep s = s := by
  induction s with
  | nil => rfl
  | cons c cs ih =>
    have hc : c ≠ sep := fun e => h (by simp [e])
    have hcs : sep ∉ cs := fun e => h (by simp [e])
    rw [before_cons_ne sep c cs hc, ih hcs]

theorem after_of_not_mem (sep : Char) (s : Str) (h : sep ∉ s) : after sep s = [] := by
  induction s with
  | nil => rfl
  | cons c cs ih =>
    have hc : c ≠ sep := fun e => h (by simp [e])
    have hcs : sep ∉ cs := fun e => h (by simp [e])
    rw [after_cons_ne sep c cs hc, ih hcs]

theorem before_append_sep (sep : Char) (a b : Str) (h : sep ∉ a) :
    before sep (a ++ sep :: b) = a := by
  induction a with
  | nil => exact before_cons_self sep b
  | cons c cs ih =>
    have hc : c ≠ sep := fun e => h (by simp [e])
    have hcs : sep ∉ cs := fun e => h (by simp [e])
    rw [List.cons_append, before_cons_ne sep c _ hc, ih hcs]

theorem Split_first (s : Str) (sep : Char) :
    ∃ ws, Split s sep = before sep s :: ws := by
  obtain ⟨w, ws, h⟩ := Split_eq_cons s sep
  have := Split_head s sep
  rw [h] at this
  simp only [List.head?_cons, Option.some.injEq] at this
  exact ⟨ws, by rw [h, this]; rfl⟩

/-- With a separator in `s`, the pieces are the text before it and the pieces
of the text after it. -/
theorem Split_before_after (s : Str) (sep : Char) (h : sep ∈ s) :
    Split s sep = before sep s :: Split (after sep s) sep := by
  obtain ⟨ws, hws⟩ := Split_first s sep
  have := Split_tail s sep h
  rw [hws] at this
  simp only [List.tail_cons] at this
  rw [hws, this]; rfl

/-- The second piece of a split, or the empty string: the text after the first
separator and before the second. -/
theorem Split_second (s : Str) (sep : Char) :
    ∃ F, Split s sep = before sep s :: F ∧ F.headD [] = before sep (after sep s) := by
  by_cases h : sep ∈ s
  · obtain ⟨ws, hws⟩ := Split_first (after sep s) sep
    exact ⟨_, Split_before_after s sep h, by rw [hws]; rfl⟩
  · refine ⟨[], ?_, ?_⟩
    · rw [Split_of_not_mem s sep h, before_of_not_mem sep s h]
    · rw [after_of_not_mem sep s h]; rfl

/-- What `splitTypes` returns on an input with a `/`, in terms of the text
around the first separators. -/
theorem splitTypes_slash (s : Str) (h : MainSubSplitCharacter ∈ s) :
    ∃ T S, Split (before SuffixCharacter (subtypePortion s)) TreeSeparatorCharacter = T ++ [S]
      ∧ splitTypes s = some
          { Main := before MainSubSplitCharacter s, Tree := T, Sub := S,
            Suf := before SuffixCharacter (after SuffixCharacter (subtypePortion s)),
            Params := [] } := by
  obtain ⟨R, hR⟩ := Split_first (after MainSubSplitCharacter s) MainSubSplitCharacter
  have h1 := Split_before_after s _ h
  rw [hR] at h1
  obtain ⟨F, h2, hF⟩ := Split_second (subtypePortion s) SuffixCharacter
  obtain ⟨T, S, h3⟩ :=
    Split_eq_append (before SuffixCharacter (subtypePortion s)) TreeSeparatorCharacter
  refine ⟨T, S, h3, ?_⟩
  have := splitTypes_parts s _ _ _ S R F T h1 h2 h3
  rw [hF] at this
  exact this

/-! ## `FullType` in closed form -/

theorem treeText_append (T : List Str) (S : Str) :
    treeText T ++ S = Join (T ++ [S]) TreeSeparatorCharacter := by
  induction T with
  | nil => rfl
  | cons t ts ih =>
    cases ts with
    | nil => simp [treeText, Join]
    | cons u us =>
      simp only [List.cons_append] at ih ⊢
      rw [Join_cons_cons, ← ih]
      simp [treeText]

theorem Join_eq_treeText (T : List Str) (hT : T ≠ []) :
    Join T TreeSeparatorCharacter ++ [TreeSeparatorCharacter] = treeText T := by
  induction T with
  | nil => exact absurd rfl hT
  | cons t ts ih =>
    cases ts with
    | nil => simp [treeText, Join]
    | cons u us =>
      rw [Join_cons_cons]
      have := ih (by simp)
      simp only [treeText] at this ⊢
      simp [this]

/-- The string `FullType` builds: `Main` alone when `Tree`, `Sub` and `Suf` are
all empty, else `Main`, a `/`, the tree segments and `Sub` joined by `.`, and
the suffix after a `+` when there is one. -/
theorem FullType_eq (m : MediaTypeMutable) :
    m.FullType = m.Main ++
      (if m.Tree = [] ∧ m.Sub = [] ∧ m.Suf = [] then []
       else MainSubSplitCharacter ::
        (Join (m.Tree ++ [m.Sub]) TreeSeparatorCharacter
          ++ (if m.Suf = [] then [] else SuffixCharacter :: m.Suf))) := by
  obtain ⟨M, T, S, F, P⟩ := m
  rw [← treeText_append]
  simp only [MediaTypeMutable.FullType]
  cases T with
  | nil =>
    by_cases hS : S = [] <;> by_cases hF : F = [] <;>
      simp [hS, hF, treeText, eq_comm]
  | cons t ts =>
    have := Join_eq_treeText (t :: ts) (by simp)
    by_cases hF : F = []
    · simp only [hF]
      simp [← this]
    · have hF2 : ¬ ([] = F) := fun e => hF e.symm
      simp [hF, hF2, ← this]

/-- A joined list with a non-empty piece, or with two pieces, is not empty. -/
theorem Join_append_singleton_ne_nil (T : List Str) (S : Str) (sep : Char)
    (h : ¬ (T = [] ∧ S = [])) : Join (T ++ [S]) sep ≠ [] := by
  by_cases hT : T = []
  · subst hT
    simpa [Join] using h
  · rw [Join_append_singleton T S sep hT]
    simp

theorem Split_eq_singleton_nil (w : Str) (sep : Char) (T : List Str) (S : Str)
    (h : Split w sep = T ++ [S]) (hw : w ≠ []) : ¬ (T = [] ∧ S = []) := by
  rintro ⟨rfl, rfl⟩
  have := Join_Split w sep
  rw [h] at this
  exact hw (by simpa [Join] using this.symm)

/-- The `Main` of the parsed model is the text before the first `/`, for every
input. -/
theorem splitTypes_Main (s : Str) :
    ∃ m, splitTypes s = some m ∧ m.Main = before MainSubSplitCharacter s := by
  by_cases h : MainSubSplitCharacter ∈ s
  · obtain ⟨T, S, -, hm⟩ := splitTypes_slash s h
    exact ⟨_, hm, rfl⟩
  · exact ⟨_, splitTypes_single s s (Split_of_not_mem s _ h),
      (before_of_not_mem _ s h).symm⟩

/-- The last of a list of pieces, the last one free of the separator, is the
text after the last separator of the joined list. -/
theorem afterLast_Join (T : List Str) (S : Str) (sep : Char) (hS : sep ∉ S) :
    afterLast sep (Join (T ++ [S]) sep) = S := by
  have hr : sep ∉ S.reverse := fun h => hS (List.mem_reverse.1 h)
  by_cases hT : T = []
  · subst hT
    simp only [List.nil_append, Join, afterLast]
    rw [before_of_not_mem sep _ hr, List.reverse_reverse]
  · rw [Join_append_singleton T S sep hT]
    simp only [afterLast, List.reverse_append, List.reverse_cons, List.append_assoc,
      List.singleton_append]
    rw [before_append_sep sep _ _ hr, List.reverse_reverse]

/-! ## The claims -/

/-- Claim C1: `splitTypes` is total.  For every input string, the empty one and
strings made only of separators included, it returns a model; and each index it
takes is in bounds whatever string is split: the first element of the `/`-split,
the first element of the `+`-split and the last element of the `.`-split. -/
theorem splitTypes_total (fullType p w : Str) :
    (∃ mt, splitTypes fullType = some mt)
    ∧ (∃ x, index (Split fullType MainSubSplitCharacter) 0 = some x)
    ∧ (∃ x, index (Split p SuffixCharacter) 0 = some x)
    ∧ (∃ x, index (Split w TreeSeparatorCharacter)
        (((Split w TreeSeparatorCharacter).length : Int) - 1) = some x) := by
  refine ⟨?_, ?_, ?_, ?_⟩
  · obtain ⟨M, R, h1⟩ := Split_eq_cons fullType MainSubSplitCharacter
    cases R with
    | nil => exact ⟨_, splitTypes_single _ _ h1⟩
    | cons P R =>
      obtain ⟨W, F, h2⟩ := Split_eq_cons P SuffixCharacter
      obtain ⟨T, S, h3⟩ := Split_eq_append W TreeSeparatorCharacter
      exact ⟨_, splitTypes_parts _ M P W S R F T h1 h2 h3⟩
  · obtain ⟨M, R, h1⟩ := Split_eq_cons fullType MainSubSplitCharacter
    exact ⟨M, by rw [h1, index_zero]⟩
  · obtain ⟨W, F, h2⟩ := Split_eq_cons p SuffixCharacter
    exact ⟨W, by rw [h2, index_zero]⟩
  · obtain ⟨T, S, h3⟩ := Split_eq_append w TreeSeparatorCharacter
    exact ⟨S, by rw [h3, index_last]⟩

/-- Claim C2: tree reconstruction.  For every non-empty sequence `T` of tree
segments and every subtype `S`, all free of `/`, `.` and `+`, parsing
`"app/" ++ join(T, ".") ++ "." ++ S` gives `Main = "app"`, `Tree = T`,
`Sub = S` and `Suf = ""`; and `"application/vnd.oasis.opendocument.text"`
gives `Tree = ["vnd", "oasis", "opendocument"]` and `Sub = "text"`. -/
theorem splitTypes_tree_reconstruction (T : List Str) (S : Str) (hT : T ≠ [])
    (hTs : ∀ t ∈ T, SepFree t) (hS : SepFree S) :
    splitTypes ("app/".toList ++ Join T '.' ++ ".".toList ++ S)
        = some { Main := "app".toList, Tree := T, Sub := S, Suf := [], Params := [] }
    ∧ splitTypes "application/vnd.oasis.opendocument.text".toList
        = some { Main := "application".toList,
                 Tree := ["vnd".toList, "oasis".toList, "opendocument".toList],
                 Sub := "text".toList, Suf := [], Params := [] } := by
  refine ⟨?_, by decide⟩
  have hall : ∀ w ∈ T ++ [S], SepFree w := by
    intro w hw
    rcases List.mem_append.1 hw with h | h
    · exact hTs w h
    · simp only [List.mem_singleton] at h; exact h ▸ hS
  have hJ : Join (T ++ [S]) TreeSeparatorCharacter
      = Join T TreeSeparatorCharacter ++ TreeSeparatorCharacter :: S :=
    Join_append_singleton T S _ hT
  have e : "app/".toList ++ Join T '.' ++ ".".toList ++ S
      = "app".toList ++ MainSubSplitCharacter :: Join (T ++ [S]) TreeSeparatorCharacter := by
    rw [hJ]; simp [MainSubSplitCharacter, TreeSeparatorCharacter]
  rw [e]
  apply splitTypes_plain
  · decide
  · exact not_mem_Join _ _ _ (by decide) (fun w hw => (hall w hw).1)
  · exact not_mem_Join _ _ _ (by decide) (fun w hw => (hall w hw).2.2)
  · exact Split_Join _ _ (by simp) (fun w hw => (hall w hw).2.1)

/-- The input of the tree reconstruction example is an instance of C2. -/
theorem splitTypes_tree_reconstruction_witness :
    splitTypes ("app/".toList ++ Join ["vnd".toList, "oasis".toList] '.' ++ ".".toList
        ++ "text".toList)
      = some { Main := "app".toList, Tree := ["vnd".toList, "oasis".toList],
               Sub := "text".toList, Suf := [], Params := [] } :=
  (splitTypes_tree_reconstruction ["vnd".toList, "oasis".toList] "text".toList
    (by decide) (by decide) (by decide)).1

/-- Claim C3, refuted as stated: on `"a/b+c+d"` the text after the first `+` of
the subtype portion is `"c+d"`, while the parsed `Suf` is `"c"`. -/
theorem splitTypes_suffix_not_verbatim :
    MainSubSplitCharacter ∈ "a/b+c+d".toList
    ∧ after SuffixCharacter (subtypePortion "a/b+c+d".toList) = "c+d".toList
    ∧ splitTypes "a/b+c+d".toList
        = some { Main := "a".toList, Tree := [], Sub := "b".toList, Suf := "c".toList,
                 Params := [] }
    ∧ ¬ ∃ m, splitTypes "a/b+c+d".toList = some m ∧ m.Sub = "b".toList
        ∧ m.Suf = "c+d".toList := by
  refine ⟨by decide, by decide, by decide, ?_⟩
  rintro ⟨m, hm, -, hs⟩
  have e : splitTypes "a/b+c+d".toList
      = some { Main := "a".toList, Tree := [], Sub := "b".toList, Suf := "c".toList,
               Params := [] } := by decide
  rw [e] at hm
  cases hm
  revert hs
  decide

/-- Claim C3, amended: for every input containing a `/`, the `Suf` produced by
`splitTypes` is the text of the subtype portion after its first `+` and before
its second `+` (empty when there is no `+`); hence it is everything after the
first `+`, verbatim, exactly when that remainder has no further `+`.  On
`"a/b+c+d"` it gives `Sub = "b"` and `Suf = "c"`. -/
theorem splitTypes_suffix_first_segment (s : Str) (h : MainSubSplitCharacter ∈ s) :
    (∃ m, splitTypes s = some m
      ∧ m.Suf = before SuffixCharacter (after SuffixCharacter (subtypePortion s))
      ∧ (m.Suf = after SuffixCharacter (subtypePortion s)
          ↔ SuffixCharacter ∉ after SuffixCharacter (subtypePortion s)))
    ∧ splitTypes "a/b+c+d".toList
        = some { Main := "a".toList, Tree := [], Sub := "b".toList, Suf := "c".toList,
                 Params := [] } := by
  refine ⟨?_, by decide⟩
  obtain ⟨T, S, -, hm⟩ := splitTypes_slash s h
  refine ⟨_, hm, rfl, ?_⟩
  constructor
  · intro e hmem
    have hsplit := not_mem_of_mem_Split (after SuffixCharacter (subtypePortion s)) SuffixCharacter
    obtain ⟨ws, hws⟩ := Split_first (after SuffixCharacter (subtypePortion s)) SuffixCharacter
    have := hsplit _ (by rw [hws]; exact List.mem_cons_self _ _)
    simp only at e
    rw [e] at this
    exact this hmem
  · intro hn
    exact before_of_not_mem _ _ hn

/-- An input with two `+` in its subtype portion, as an instance of the amended
C3. -/
theorem splitTypes_suffix_first_segment_witness :
    MainSubSplitCharacter ∈ "x/y.z+json+zip".toList
    ∧ ∃ m, splitTypes "x/y.z+json+zip".toList = some m
      ∧ m.Suf = before SuffixCharacter
          (after SuffixCharacter (subtypePortion "x/y.z+json+zip".toList))
      ∧ (m.Suf = after SuffixCharacter (subtypePortion "x/y.z+json+zip".toList)
          ↔ SuffixCharacter ∉ after SuffixCharacter
              (subtypePortion "x/y.z+json+zip".toList)) :=
  ⟨by decide, (splitTypes_suffix_first_segment "x/y.z+json+zip".toList (by decide)).1⟩

/-- Claim C6: the degenerate case without a subtype.  For every input `s`
without a `/`, the empty string included, `splitTypes s` has `Main = s`, an
empty `Sub`, an empty `Tree` and an empty `Suf`, and its `FullType` is exactly
`s`, with no separator appended. -/
theorem splitTypes_no_subtype (s : Str) (h : MainSubSplitCharacter ∉ s) :
    splitTypes s = some { Main := s, Tree := [], Sub := [], Suf := [], Params := [] }
    ∧ ∃ m, splitTypes s = some m ∧ m.FullType = s := by
  have e : splitTypes s = some { Main := s, Tree := [], Sub := [], Suf := [], Params := [] } :=
    splitTypes_single s s (Split_of_not_mem s _ h)
  refine ⟨e, _, e, ?_⟩
  simp [MediaTypeMutable.FullType]

/-- The inputs `"app"` and `""` as instances of C6. -/
theorem splitTypes_no_subtype_witness :
    (splitTypes "app".toList
        = some { Main := "app".toList, Tree := [], Sub := [], Suf := [], Params := [] }
      ∧ ∃ m, splitTypes "app".toList = some m ∧ m.FullType = "app".toList)
    ∧ (splitTypes []
        = some { Main := [], Tree := [], Sub := [], Suf := [], Params := [] }
      ∧ ∃ m, splitTypes [] = some m ∧ m.FullType = []) :=
  ⟨splitTypes_no_subtype "app".toList (by decide), splitTypes_no_subtype [] (by decide)⟩

/-- Claim C7: suffix isolation.  For every `M` without `/`, every `S` free of
`/`, `.` and `+`, and every `F` without `/` and `+`, parsing
`M ++ "/" ++ S ++ "+" ++ F` gives `Main = M`, `Sub = S`, `Suf = F` and an empty
`Tree`: a `.` inside the suffix creates no tree segment. -/
theorem splitTypes_suffix_isolation (M S F : Str) (hM : MainSubSplitCharacter ∉ M)
    (hS : SepFree S) (hF : MainSubSplitCharacter ∉ F ∧ SuffixCharacter ∉ F) :
    splitTypes (M ++ "/".toList ++ S ++ "+".toList ++ F)
      = some { Main := M, Tree := [], Sub := S, Suf := F, Params := [] } := by
  have e : M ++ "/".toList ++ S ++ "+".toList ++ F
      = M ++ MainSubSplitCharacter :: (S ++ SuffixCharacter :: F) := by
    simp [MainSubSplitCharacter, SuffixCharacter]
  rw [e]
  exact splitTypes_suffixed M S F S [] hM hS.1 hS.2.2 hF.1 hF.2
    (Split_of_not_mem S _ hS.2.1)

/-- The inputs `"app/sub+suf"` and `"application/epub+zip"` as instances of C7,
and an input with a `.` in its suffix. -/
theorem splitTypes_suffix_isolation_witness :
    splitTypes "app/sub+suf".toList
      = some { Main := "app".toList, Tree := [], Sub := "sub".toList, Suf := "suf".toList,
               Params := [] }
    ∧ splitTypes "application/epub+zip".toList
      = some { Main := "application".toList, Tree := [], Sub := "epub".toList,
               Suf := "zip".toList, Params := [] }
    ∧ splitTypes "a/b+c.d".toList
      = some { Main := "a".toList, Tree := [], Sub := "b".toList, Suf := "c.d".toList,
               Params := [] } :=
  ⟨splitTypes_suffix_isolation "app".toList "sub".toList "suf".toList
      (by decide) (by decide) (by decide),
   splitTypes_suffix_isolation "application".toList "epub".toList "zip".toList
      (by decide) (by decide) (by decide),
   splitTypes_suffix_isolation "a".toList "b".toList "c.d".toList
      (by decide) (by decide) (by decide)⟩

/-- Claim C4: round trip model → text → model.  For every model with empty
`Params` in which `Main`, every `Tree` segment, `Sub` and `Suf` are free of
`/`, `.` and `+`, parsing its `FullType` gives the model back, field by field;
this covers an empty `Sub`, an empty `Suf`, an empty `Tree` and several `Tree`
levels. -/
theorem splitTypes_FullType (m : MediaTypeMutable) (hP : m.Params = [])
    (hMain : SepFree m.Main) (hTree : ∀ t ∈ m.Tree, SepFree t)
    (hSub : SepFree m.Sub) (hSuf : SepFree m.Suf) :
    splitTypes m.FullType = some m := by
  rw [FullType_eq]
  obtain ⟨M, T, S, F, P⟩ := m
  simp only at hP hMain hTree hSub hSuf ⊢
  subst hP
  have hall : ∀ w ∈ T ++ [S], SepFree w := by
    intro w hw
    rcases List.mem_append.1 hw with h | h
    · exact hTree w h
    · simp only [List.mem_singleton] at h; exact h ▸ hSub
  have hW1 : MainSubSplitCharacter ∉ Join (T ++ [S]) TreeSeparatorCharacter :=
    not_mem_Join _ _ _ (by decide) (fun w hw => (hall w hw).1)
  have hW2 : SuffixCharacter ∉ Join (T ++ [S]) TreeSeparatorCharacter :=
    not_mem_Join _ _ _ (by decide) (fun w hw => (hall w hw).2.2)
  have h3 : Split (Join (T ++ [S]) TreeSeparatorCharacter) TreeSeparatorCharacter = T ++ [S] :=
    Split_Join _ _ (by simp) (fun w hw => (hall w hw).2.1)
  by_cases h0 : T = [] ∧ S = [] ∧ F = []
  · obtain ⟨rfl, rfl, rfl⟩ := h0
    simp only [and_self, if_true, List.append_nil]
    exact splitTypes_single M M (Split_of_not_mem M _ hMain.1)
  · rw [if_neg h0]
    by_cases hF : F = []
    · subst hF
      simp only [if_true, List.append_nil]
      exact splitTypes_plain M _ S T hMain.1 hW1 hW2 h3
    · rw [if_neg hF]
      exact splitTypes_suffixed M _ F S T hMain.1 hW1 hW2 hSuf.1 hSuf.2.2 h3

/-- Models with several tree levels and an empty `Sub`, with only a suffix, and
with only a main type, as instances of C4. -/
theorem splitTypes_FullType_witness :
    splitTypes (MediaTypeMutable.FullType
        { Main := "application".toList, Tree := ["vnd".toList, "ms".toList], Sub := [],
          Suf := "xml".toList, Params := [] })
      = some { Main := "application".toList, Tree := ["vnd".toList, "ms".toList], Sub := [],
               Suf := "xml".toList, Params := [] }
    ∧ splitTypes (MediaTypeMutable.FullType
        { Main := "a".toList, Tree := [], Sub := [], Suf := "z".toList, Params := [] })
      = some { Main := "a".toList, Tree := [], Sub := [], Suf := "z".toList, Params := [] }
    ∧ splitTypes (MediaTypeMutable.FullType
        { Main := "a".toList, Tree := [], Sub := [], Suf := [], Params := [] })
      = some { Main := "a".toList, Tree := [], Sub := [], Suf := [], Params := [] } :=
  ⟨splitTypes_FullType _ rfl (by decide) (by decide) (by decide) (by decide),
   splitTypes_FullType _ rfl (by decide) (by decide) (by decide) (by decide),
   splitTypes_FullType _ rfl (by decide) (by decide) (by decide) (by decide)⟩

/-- Claim C5: round trip text → model → text.  For every well-formed type string
`main "/" (tree-segment ".")* subtype ["+" suffix]` whose segments are
non-empty and free of `/`, `.` and `+`, the `FullType` of the parsed model is
the string itself, with or without a suffix and with any number of tree
levels. -/
theorem FullType_splitTypes (main sub : Str) (tree : List Str) (suffix : Option Str)
    (hMain : main ≠ [] ∧ SepFree main) (hTree : ∀ t ∈ tree, t ≠ [] ∧ SepFree t)
    (hSub : sub ≠ [] ∧ SepFree sub) (hSuf : ∀ f, suffix = some f → f ≠ [] ∧ SepFree f) :
    ∃ m, splitTypes (wellFormedText main tree sub suffix) = some m
      ∧ m.FullType = wellFormedText main tree sub suffix := by
  have hall : ∀ w ∈ tree ++ [sub], SepFree w := by
    intro w hw
    rcases List.mem_append.1 hw with h | h
    · exact (hTree w h).2
    · simp only [List.mem_singleton] at h; exact h ▸ hSub.2
  have hW1 : MainSubSplitCharacter ∉ Join (tree ++ [sub]) TreeSeparatorCharacter :=
    not_mem_Join _ _ _ (by decide) (fun w hw => (hall w hw).1)
  have hW2 : SuffixCharacter ∉ Join (tree ++ [sub]) TreeSeparatorCharacter :=
    not_mem_Join _ _ _ (by decide) (fun w hw => (hall w hw).2.2)
  have h3 : Split (Join (tree ++ [sub]) TreeSeparatorCharacter) TreeSeparatorCharacter
      = tree ++ [sub] :=
    Split_Join _ _ (by simp) (fun w hw => (hall w hw).2.1)
  cases suffix with
  | none =>
    have e : wellFormedText main tree sub none
        = main ++ MainSubSplitCharacter :: Join (tree ++ [sub]) TreeSeparatorCharacter := by
      rw [← treeText_append]; simp [wellFormedText]
    rw [e]
    refine ⟨_, splitTypes_plain main _ sub tree hMain.2.1 hW1 hW2 h3, ?_⟩
    rw [FullType_eq]
    have hne1 : ¬ (tree = [] ∧ sub = [] ∧ True) := fun h => hSub.1 h.2.1
    simp only [if_neg hne1, if_true, List.append_nil]
  | some f =>
    obtain ⟨hf, hfs⟩ := hSuf f rfl
    have e : wellFormedText main tree sub (some f)
        = main ++ MainSubSplitCharacter ::
            (Join (tree ++ [sub]) TreeSeparatorCharacter ++ SuffixCharacter :: f) := by
      rw [← treeText_append]; simp [wellFormedText]
    rw [e]
    refine ⟨_, splitTypes_suffixed main _ f sub tree hMain.2.1 hW1 hW2 hfs.1 hfs.2.2 h3, ?_⟩
    rw [FullType_eq]
    have hne2 : ¬ (tree = [] ∧ sub = [] ∧ f = []) := fun h => hSub.1 h.2.1
    simp only [if_neg hne2, if_neg hf]

/-- Well-formed strings with a suffix and two tree levels, and without suffix
and tree, as instances of C5. -/
theorem FullType_splitTypes_witness :
    (wellFormedText "application".toList ["vnd".toList, "oasis".toList] "text".toList
        (some "xml".toList) = "application/vnd.oasis.text+xml".toList
      ∧ ∃ m, splitTypes "application/vnd.oasis.text+xml".toList = some m
          ∧ m.FullType = "application/vnd.oasis.text+xml".toList)
    ∧ (wellFormedText "text".toList [] "html".toList none = "text/html".toList
      ∧ ∃ m, splitTypes "text/html".toList = some m ∧ m.FullType = "text/html".toList) :=
  ⟨⟨by decide,
    FullType_splitTypes "application".toList "text".toList ["vnd".toList, "oasis".toList]
      (some "xml".toList) (by decide) (by decide) (by decide)
      (by intro f hf; cases hf; decide)⟩,
   ⟨by decide,
    FullType_splitTypes "text".toList "html".toList [] none (by decide) (by decide)
      (by decide) (by intro f hf; cases hf)⟩⟩

/-- Claim C8, refuted as stated: for the model with `Main = "a"` and
`Sub = "b/c"`, `FullType` is `"a/b/c"`, and parsing and formatting it again
gives `"a/b"`. -/
theorem FullType_not_idempotent :
    MediaTypeMutable.FullType
        { Main := "a".toList, Tree := [], Sub := "b/c".toList, Suf := [], Params := [] }
      = "a/b/c".toList
    ∧ (splitTypes (MediaTypeMutable.FullType
        { Main := "a".toList, Tree := [], Sub := "b/c".toList, Suf := [], Params := [] })).map
          MediaTypeMutable.FullType = some "a/b".toList
    ∧ ¬ ∃ m, splitTypes (MediaTypeMutable.FullType
          { Main := "a".toList, Tree := [], Sub := "b/c".toList, Suf := [], Params := [] })
            = some m
        ∧ m.FullType = MediaTypeMutable.FullType
          { Main := "a".toList, Tree := [], Sub := "b/c".toList, Suf := [], Params := [] } := by
  refine ⟨by decide, by decide, ?_⟩
  rintro ⟨m, hm, he⟩
  have e : splitTypes (MediaTypeMutable.FullType
      { Main := "a".toList, Tree := [], Sub := "b/c".toList, Suf := [], Params := [] })
      = some { Main := "a".toList, Tree := [], Sub := "b".toList, Suf := [], Params := [] } := by
    decide
  rw [e] at hm
  cases hm
  revert he
  decide

/-- Claim C8, amended: idempotence of the canonical type string for every model
whose `Main` has no `/` and whose `Tree` segments, `Sub` and `Suf` have neither
`/` nor `+`: parsing `FullType` and formatting the result gives `FullType`
again, character for character. -/
theorem FullType_idempotent (m : MediaTypeMutable)
    (hMain : MainSubSplitCharacter ∉ m.Main)
    (hTree : ∀ t ∈ m.Tree, MainSubSplitCharacter ∉ t ∧ SuffixCharacter ∉ t)
    (hSub : MainSubSplitCharacter ∉ m.Sub ∧ SuffixCharacter ∉ m.Sub)
    (hSuf : MainSubSplitCharacter ∉ m.Suf ∧ SuffixCharacter ∉ m.Suf) :
    ∃ m2, splitTypes m.FullType = some m2 ∧ m2.FullType = m.FullType := by
  rw [FullType_eq]
  obtain ⟨M, T, S, F, P⟩ := m
  simp only at hMain hTree hSub hSuf ⊢
  have hall : ∀ w ∈ T ++ [S], MainSubSplitCharacter ∉ w ∧ SuffixCharacter ∉ w := by
    intro w hw
    rcases List.mem_append.1 hw with h | h
    · exact hTree w h
    · simp only [List.mem_singleton] at h; exact h ▸ hSub
  have hW1 : MainSubSplitCharacter ∉ Join (T ++ [S]) TreeSeparatorCharacter :=
    not_mem_Join _ _ _ (by decide) (fun w hw => (hall w hw).1)
  have hW2 : SuffixCharacter ∉ Join (T ++ [S]) TreeSeparatorCharacter :=
    not_mem_Join _ _ _ (by decide) (fun w hw => (hall w hw).2)
  obtain ⟨T2, S2, h3⟩ :=
    Split_eq_append (Join (T ++ [S]) TreeSeparatorCharacter) TreeSeparatorCharacter
  have hJ : Join (T2 ++ [S2]) TreeSeparatorCharacter
      = Join (T ++ [S]) TreeSeparatorCharacter := by
    rw [← h3, Join_Split]
  by_cases h0 : T = [] ∧ S = [] ∧ F = []
  · obtain ⟨rfl, rfl, rfl⟩ := h0
    simp only [and_self, if_true, List.append_nil]
    refine ⟨_, splitTypes_single M M (Split_of_not_mem M _ hMain), ?_⟩
    simp [MediaTypeMutable.FullType, MediaTypeMutable.zero]
  · rw [if_neg h0]
    by_cases hF : F = []
    · subst hF
      simp only [if_true, List.append_nil]
      refine ⟨_, splitTypes_plain M _ S2 T2 hMain hW1 hW2 h3, ?_⟩
      have hTS : ¬ (T = [] ∧ S = []) := fun h => h0 ⟨h.1, h.2, rfl⟩
      have hne := Split_eq_singleton_nil _ _ T2 S2 h3
        (Join_append_singleton_ne_nil T S _ hTS)
      have hne1 : ¬ (T2 = [] ∧ S2 = [] ∧ True) := fun h => hne ⟨h.1, h.2.1⟩
      rw [FullType_eq]
      simp only [if_neg hne1, if_true, List.append_nil, hJ]
    · rw [if_neg hF]
      refine ⟨_, splitTypes_suffixed M _ F S2 T2 hMain hW1 hW2 hSuf.1 hSuf.2 h3, ?_⟩
      have hne2 : ¬ (T2 = [] ∧ S2 = [] ∧ F = []) := fun h => hF h.2.2
      rw [FullType_eq]
      simp only [if_neg hne2, if_neg hF, hJ]

/-- A model with a `.` inside a tree segment and inside its suffix, as an
instance of the amended C8. -/
theorem FullType_idempotent_witness :
    ∃ m2, splitTypes (MediaTypeMutable.FullType
        { Main := "a".toList, Tree := ["x.y".toList], Sub := "s".toList,
          Suf := "f.g".toList, Params := [] }) = some m2
      ∧ m2.FullType = MediaTypeMutable.FullType
        { Main := "a".toList, Tree := ["x.y".toList], Sub := "s".toList,
          Suf := "f.g".toList, Params := [] } :=
  FullType_idempotent _ (by decide) (by decide) (by decide) (by decide)

/-- Claim C9: the tree/sub invariant of parsing.  For every input containing a
`/`, with `w` the part of its second `/`-segment before the first `+` (the
whole segment if it has no `+`): joining the parsed `Tree` segments followed
by `Sub` with `.` gives exactly `w`; `Sub` is the last `.`-segment of `w`; and
`Tree` is the list of all preceding segments in their original order. -/
theorem splitTypes_tree_sub (s : Str) (h : MainSubSplitCharacter ∈ s) :
    ∃ m, splitTypes s = some m
      ∧ Join (m.Tree ++ [m.Sub]) TreeSeparatorCharacter
          = before SuffixCharacter (subtypePortion s)
      ∧ m.Sub = afterLast TreeSeparatorCharacter (before SuffixCharacter (subtypePortion s))
      ∧ m.Tree ++ [m.Sub]
          = Split (before SuffixCharacter (subtypePortion s)) TreeSeparatorCharacter
      ∧ ∀ t ∈ m.Tree ++ [m.Sub], TreeSeparatorCharacter ∉ t := by
  obtain ⟨T, S, h3, hm⟩ := splitTypes_slash s h
  have hJ : Join (T ++ [S]) TreeSeparatorCharacter
      = before SuffixCharacter (subtypePortion s) := by
    rw [← h3, Join_Split]
  have hfree : ∀ t ∈ T ++ [S], TreeSeparatorCharacter ∉ t := by
    rw [← h3]; exact not_mem_of_mem_Split _ _
  refine ⟨_, hm, hJ, ?_, h3.symm, hfree⟩
  simp only
  rw [← hJ, afterLast_Join T S _ (hfree S (by simp))]

/-- An input with two tree levels, a suffix and a second `/`, as an instance of
C9. -/
theorem splitTypes_tree_sub_witness :
    before SuffixCharacter (subtypePortion "a/x.y.z+f/q".toList) = "x.y.z".toList
    ∧ ∃ m, splitTypes "a/x.y.z+f/q".toList = some m
      ∧ Join (m.Tree ++ [m.Sub]) TreeSeparatorCharacter
          = before SuffixCharacter (subtypePortion "a/x.y.z+f/q".toList)
      ∧ m.Sub = afterLast TreeSeparatorCharacter
          (before SuffixCharacter (subtypePortion "a/x.y.z+f/q".toList))
      ∧ m.Tree ++ [m.Sub]
          = Split (before SuffixCharacter (subtypePortion "a/x.y.z+f/q".toList))
              TreeSeparatorCharacter
      ∧ ∀ t ∈ m.Tree ++ [m.Sub], TreeSeparatorCharacter ∉ t :=
  ⟨by decide, splitTypes_tree_sub "a/x.y.z+f/q".toList (by decide)⟩

/-- Claim C10, refuted as stated: the input `"/a"` is not empty and the `Main`
parsed from it is empty. -/
theorem splitTypes_main_empty :
    "/a".toList ≠ []
    ∧ splitTypes "/a".toList
        = some { Main := [], Tree := [], Sub := "a".toList, Suf := [], Params := [] }
    ∧ ¬ ∃ m, splitTypes "/a".toList = some m ∧ m.Main ≠ [] := by
  refine ⟨by decide, by decide, ?_⟩
  rintro ⟨m, hm, hne⟩
  have e : splitTypes "/a".toList
      = some { Main := [], Tree := [], Sub := "a".toList, Suf := [], Params := [] } := by
    decide
  rw [e] at hm
  cases hm
  exact hne rfl

/-- Claim C10, amended: for every non-empty input `s`, the `Main` of
`splitTypes s` is the first component obtained by splitting `s` on `/`, the
text before the first `/`; it is non-empty exactly when `s` does not begin
with `/`. -/
theorem splitTypes_main_first (s : Str) (hne : s ≠ []) :
    ∃ m, splitTypes s = some m
      ∧ (Split s MainSubSplitCharacter).head? = some m.Main
      ∧ m.Main = before MainSubSplitCharacter s
      ∧ (m.Main ≠ [] ↔ s.head? ≠ some MainSubSplitCharacter) := by
  obtain ⟨m, hm, hM⟩ := splitTypes_Main s
  obtain ⟨ws, hws⟩ := Split_first s MainSubSplitCharacter
  refine ⟨m, hm, by rw [hws, hM]; rfl, hM, ?_⟩
  rw [hM]
  cases s with
  | nil => exact absurd rfl hne
  | cons c cs =>
    by_cases hc : c = MainSubSplitCharacter
    · subst hc
      rw [before_cons_self]
      simp
    · rw [before_cons_ne _ c cs hc]
      simp [hc]

/-- The input `"text/html"` as an instance of the amended C10. -/
theorem splitTypes_main_first_witness :
    "text/html".toList ≠ []
    ∧ ∃ m, splitTypes "text/html".toList = some m
      ∧ (Split "text/html".toList MainSubSplitCharacter).head? = some m.Main
      ∧ m.Main = before MainSubSplitCharacter "text/html".toList
      ∧ (m.Main ≠ [] ↔ "text/html".toList.head? ≠ some MainSubSplitCharacter) :=
  ⟨by decide, splitTypes_main_first "text/html".toList (by decide)⟩

/-! ## Where the characters of the parsed components come from -/

theorem mem_of_mem_before (sep c : Char) (s : Str) (h : c ∈ before sep s) : c ∈ s := by
  induction s with
  | nil => exact h
  | cons d ds ih =>
    by_cases hd : d = sep
    · subst hd
      rw [before_cons_self] at h
      simp at h
    · rw [before_cons_ne sep d ds hd] at h
      rcases List.mem_cons.1 h with e | e
      · exact e ▸ List.mem_cons_self _ _
      · exact List.mem_cons_of_mem _ (ih e)

theorem mem_of_mem_after (sep c : Char) (s : Str) (h : c ∈ after sep s) : c ∈ s := by
  induction s with
  | nil => exact h
  | cons d ds ih =>
    by_cases hd : d = sep
    · subst hd
      rw [after_cons_self] at h
      exact List.mem_cons_of_mem _ h
    · rw [after_cons_ne sep d ds hd] at h
      exact List.mem_cons_of_mem _ (ih h)

/-- The text before the first separator does not contain the separator. -/
theorem not_mem_before (sep : Char) (s : Str) : sep ∉ before sep s := by
  obtain ⟨ws, hws⟩ := Split_first s sep
  exact not_mem_of_mem_Split s sep _ (by rw [hws]; exact List.mem_cons_self _ _)

theorem mem_Join_of_mem (l : List Str) (sep c : Char) (w : Str) (hw : w ∈ l) (hc : c ∈ w) :
    c ∈ Join l sep := by
  induction l with
  | nil => simp at hw
  | cons a rest ih =>
    cases rest with
    | nil =>
      simp only [List.mem_singleton] at hw
      subst hw
      simpa [Join] using hc
    | cons b rest =>
      rw [Join_cons_cons]
      rcases List.mem_cons.1 hw with e | e
      · subst e
        exact List.mem_append_left _ hc
      · exact List.mem_append_right _ (List.mem_cons_of_mem _ (ih e))

/-- A character of a piece is a character of the string that was split. -/
theorem mem_of_mem_Split (s : Str) (sep c : Char) (w : Str) (hw : w ∈ Split s sep)
    (hc : c ∈ w) : c ∈ s := by
  have := mem_Join_of_mem (Split s sep) sep c w hw hc
  rwa [Join_Split] at this

theorem not_mem_subtypePortion (s : Str) : MainSubSplitCharacter ∉ subtypePortion s :=
  not_mem_before _ _

/-- The components `splitTypes` returns are free of the separators that were
used to cut them out. -/
theorem splitTypes_clean (s : Str) :
    ∃ m, splitTypes s = some m ∧ m.Params = []
      ∧ MainSubSplitCharacter ∉ m.Main
      ∧ (∀ t ∈ m.Tree, SepFree t) ∧ SepFree m.Sub
      ∧ MainSubSplitCharacter ∉ m.Suf ∧ SuffixCharacter ∉ m.Suf := by
  by_cases h : MainSubSplitCharacter ∈ s
  · obtain ⟨T, S, h3, hm⟩ := splitTypes_slash s h
    have hseg : ∀ t ∈ T ++ [S], SepFree t := by
      intro t ht
      rw [← h3] at ht
      refine ⟨?_, not_mem_of_mem_Split _ _ t ht, ?_⟩
      · intro hc
        exact not_mem_subtypePortion s
          (mem_of_mem_before _ _ _ (mem_of_mem_Split _ _ _ t ht hc))
      · intro hc
        exact not_mem_before SuffixCharacter (subtypePortion s)
          (mem_of_mem_Split _ _ _ t ht hc)
    refine ⟨_, hm, rfl, not_mem_before _ _, fun t ht => hseg t (by simp [ht]),
      hseg S (by simp), ?_, not_mem_before _ _⟩
    intro hc
    exact not_mem_subtypePortion s (mem_of_mem_after _ _ _ (mem_of_mem_before _ _ _ hc))
  · refine ⟨_, splitTypes_single s s (Split_of_not_mem s _ h), rfl, h, ?_, ?_, ?_, ?_⟩
    · intro t ht; simp [MediaTypeMutable.zero] at ht
    · simp [MediaTypeMutable.zero, SepFree]
    · simp [MediaTypeMutable.zero]
    · simp [MediaTypeMutable.zero]

/-- Parsing the `FullType` of a model gives the model back when `Main` has no
`/`, the `Tree` segments and `Sub` have no separator, and `Suf` has neither
`/` nor `+`. -/
theorem splitTypes_FullType_clean (m : MediaTypeMutable) (hP : m.Params = [])
    (hMain : MainSubSplitCharacter ∉ m.Main) (hTree : ∀ t ∈ m.Tree, SepFree t)
    (hSub : SepFree m.Sub)
    (hSuf : MainSubSplitCharacter ∉ m.Suf ∧ SuffixCharacter ∉ m.Suf) :
    splitTypes m.FullType = some m := by
  rw [FullType_eq]
  obtain ⟨M, T, S, F, P⟩ := m
  simp only at hP hMain hTree hSub hSuf ⊢
  subst hP
  have hall : ∀ w ∈ T ++ [S], SepFree w := by
    intro w hw
    rcases List.mem_append.1 hw with h | h
    · exact hTree w h
    · simp only [List.mem_singleton] at h; exact h ▸ hSub
  have hW1 : MainSubSplitCharacter ∉ Join (T ++ [S]) TreeSeparatorCharacter :=
    not_mem_Join _ _ _ (by decide) (fun w hw => (hall w hw).1)
  have hW2 : SuffixCharacter ∉ Join (T ++ [S]) TreeSeparatorCharacter :=
    not_mem_Join _ _ _ (by decide) (fun w hw => (hall w hw).2.2)
  have h3 : Split (Join (T ++ [S]) TreeSeparatorCharacter) TreeSeparatorCharacter = T ++ [S] :=
    Split_Join _ _ (by simp) (fun w hw => (hall w hw).2.1)
  by_cases h0 : T = [] ∧ S = [] ∧ F = []
  · obtain ⟨rfl, rfl, rfl⟩ := h0
    simp only [and_self, if_true, List.append_nil]
    exact splitTypes_single M M (Split_of_not_mem M _ hMain)
  · rw [if_neg h0]
    by_cases hF : F = []
    · subst hF
      simp only [if_true, List.append_nil]
      exact splitTypes_plain M _ S T hMain hW1 hW2 h3
    · rw [if_neg hF]
      exact splitTypes_suffixed M _ F S T hMain hW1 hW2 hSuf.1 hSuf.2 h3

/-! ## The claims, continued -/

/-- Claim C11, refuted as stated: the `Main` parsed from `"a.b+c/d"` is
`"a.b+c"`, which contains a `.` and a `+`. -/
theorem splitTypes_main_with_separators :
    splitTypes "a.b+c/d".toList
      = some { Main := "a.b+c".toList, Tree := [], Sub := "d".toList, Suf := [], Params := [] }
    ∧ ¬ ∃ m, splitTypes "a.b+c/d".toList = some m ∧ SepFree m.Main := by
  refine ⟨by decide, ?_⟩
  rintro ⟨m, hm, hfree⟩
  have e : splitTypes "a.b+c/d".toList
      = some { Main := "a.b+c".toList, Tree := [], Sub := "d".toList, Suf := [],
               Params := [] } := by decide
  rw [e] at hm
  cases hm
  revert hfree
  decide

/-- Claim C11, amended: for every input string, the `Main` of `splitTypes`
contains no `/`, the main/sub separator, and it is the text of the input
before its first `/`. -/
theorem splitTypes_main_no_slash (s : Str) :
    ∃ m, splitTypes s = some m ∧ MainSubSplitCharacter ∉ m.Main
      ∧ m.Main = before MainSubSplitCharacter s := by
  obtain ⟨m, hm, hM⟩ := splitTypes_Main s
  exact ⟨m, hm, by rw [hM]; exact not_mem_before _ _, hM⟩

/-- Claim C12: `FullType` equals the reference definition for every model:
`Main`, then `/` if and only if `Tree`, `Sub` or `Suf` is non-empty, then every
`Tree` segment in order each followed by `.`, then `Sub`, then `+` and `Suf` if
and only if `Suf` is non-empty; and the join-then-append-separator step of the
code agrees with "each segment followed by a separator" for every `Tree`. -/
theorem FullType_eq_reference (m : MediaTypeMutable) :
    m.FullType = FullTypeReference m
    ∧ (if 0 < m.Tree.length then
          Join m.Tree TreeSeparatorCharacter ++ [TreeSeparatorCharacter]
        else []) = treeText m.Tree := by
  have hjoin : (if 0 < m.Tree.length then
        Join m.Tree TreeSeparatorCharacter ++ [TreeSeparatorCharacter]
      else []) = treeText m.Tree := by
    by_cases hT : m.Tree = []
    · simp [hT, treeText]
    · have hlen : 0 < m.Tree.length := List.length_pos.2 hT
      rw [if_pos hlen, Join_eq_treeText m.Tree hT]
  refine ⟨?_, hjoin⟩
  rw [FullType_eq, FullTypeReference, ← treeText_append]
  by_cases h0 : m.Tree = [] ∧ m.Sub = [] ∧ m.Suf = []
  · obtain ⟨h1, h2, h3⟩ := h0
    simp [h1, h2, h3, treeText]
  · have h1 : m.Tree ≠ [] ∨ m.Sub ≠ [] ∨ m.Suf ≠ [] := by
      by_contra hc
      simp only [not_or, not_not] at hc
      exact h0 hc
    rw [if_neg h0, if_pos h1]
    by_cases hF : m.Suf = []
    · simp [hF]
    · simp [hF]

/-- Claim C15: `Prefix` returns the first `Tree` segment when `Tree` is
non-empty and the empty string when `Tree` is empty, for every model, without
indexing out of bounds; for the model parsed from
`"application/vnd.oasis.opendocument.text"` it is `"vnd"`. -/
theorem Prefix_eq (m : MediaTypeMutable) :
    m.Prefix = some (match m.Tree with
        | [] => []
        | t :: _ => t)
    ∧ (splitTypes "application/vnd.oasis.opendocument.text".toList).bind
        MediaTypeMutable.Prefix = some "vnd".toList := by
  refine ⟨?_, by decide⟩
  obtain ⟨M, T, S, F, P⟩ := m
  cases T with
  | nil => simp [MediaTypeMutable.Prefix]
  | cons t ts => simp [MediaTypeMutable.Prefix, index_zero]

/-- Claim C17: parsing reaches a fixed point after one normalisation.  For
every input string `s`, well-formed or not, parsing the `FullType` of
`splitTypes s` gives `splitTypes s` again, field by field, and so that
`FullType` is unchanged by a further parse-and-format. -/
theorem splitTypes_fixed_point (s : Str) :
    ∃ m, splitTypes s = some m ∧ splitTypes m.FullType = some m
      ∧ (splitTypes m.FullType).map MediaTypeMutable.FullType = some m.FullType := by
  obtain ⟨m, hm, hP, hMain, hTree, hSub, hSuf1, hSuf2⟩ := splitTypes_clean s
  have h := splitTypes_FullType_clean m hP hMain hTree hSub ⟨hSuf1, hSuf2⟩
  exact ⟨m, hm, h, by rw [h]; rfl⟩

/-- Claim C18: separator-freeness of the parsed components.  For every input
string, in `splitTypes input` the `Main` contains no `/`, every `Tree` segment
and the `Sub` contain none of `/`, `.`, `+`, and the `Suf` contains no `/` and
no `+`. -/
theorem splitTypes_separator_free (input : Str) :
    ∃ m, splitTypes input = some m
      ∧ '/' ∉ m.Main
      ∧ (∀ t ∈ m.Tree, '/' ∉ t ∧ '.' ∉ t ∧ '+' ∉ t)
      ∧ ('/' ∉ m.Sub ∧ '.' ∉ m.Sub ∧ '+' ∉ m.Sub)
      ∧ ('/' ∉ m.Suf ∧ '+' ∉ m.Suf) := by
  obtain ⟨m, hm, -, hMain, hTree, hSub, hSuf1, hSuf2⟩ := splitTypes_clean input
  exact ⟨m, hm, hMain, hTree, hSub, hSuf1, hSuf2⟩

/-- Claim C19: everything from a second `/` onward is ignored.  For all strings
`a` and `b` without `/` and every string `x`, parsing
`a ++ "/" ++ b ++ "/" ++ x` gives the same model as parsing
`a ++ "/" ++ b`. -/
theorem splitTypes_second_slash (a b x : Str) (ha : MainSubSplitCharacter ∉ a)
    (hb : MainSubSplitCharacter ∉ b) :
    splitTypes (a ++ "/".toList ++ b ++ "/".toList ++ x)
      = splitTypes (a ++ "/".toList ++ b) := by
  obtain ⟨W, F, h2⟩ := Split_eq_cons b SuffixCharacter
  obtain ⟨T, S, h3⟩ := Split_eq_append W TreeSeparatorCharacter
  have e1 : a ++ "/".toList ++ b ++ "/".toList ++ x
      = a ++ MainSubSplitCharacter :: (b ++ MainSubSplitCharacter :: x) := by
    simp [MainSubSplitCharacter]
  have e2 : a ++ "/".toList ++ b = a ++ MainSubSplitCharacter :: b := by
    simp [MainSubSplitCharacter]
  have s1 : Split (a ++ "/".toList ++ b ++ "/".toList ++ x) MainSubSplitCharacter
      = a :: b :: Split x MainSubSplitCharacter := by
    rw [e1, Split_append_sep _ _ _ ha, Split_append_sep _ _ _ hb]
  have s2 : Split (a ++ "/".toList ++ b) MainSubSplitCharacter = a :: b :: [] := by
    rw [e2, Split_append_sep _ _ _ ha, Split_of_not_mem _ _ hb]
  rw [splitTypes_parts _ a b W S _ F T s1 h2 h3, splitTypes_parts _ a b W S _ F T s2 h2 h3]

/-- An input with a tree, a suffix and two more `/`-segments, as an instance of
C19. -/
theorem splitTypes_second_slash_witness :
    splitTypes "a/x.y+f/q/r".toList = splitTypes "a/x.y+f".toList
    ∧ splitTypes "a/x.y+f".toList
      = some { Main := "a".toList, Tree := ["x".toList], Sub := "y".toList,
               Suf := "f".toList, Params := [] } :=
  ⟨splitTypes_second_slash "a".toList "x.y+f".toList "q/r".toList (by decide) (by decide),
   by decide⟩

/-- Claim C20: a trailing main/sub separator is not represented in the model.
For every string `M` without `/`, parsing `M ++ "/"` gives the same model as
parsing `M`, with `Sub`, `Tree` and `Suf` all empty, so the `FullType` of both
is `M` without the `/`. -/
theorem splitTypes_trailing_slash (M : Str) (hM : MainSubSplitCharacter ∉ M) :
    splitTypes (M ++ "/".toList) = splitTypes M
    ∧ splitTypes (M ++ "/".toList)
        = some { Main := M, Tree := [], Sub := [], Suf := [], Params := [] }
    ∧ (splitTypes (M ++ "/".toList)).map MediaTypeMutable.FullType = some M
    ∧ (splitTypes M).map MediaTypeMutable.FullType = some M := by
  have e1 : splitTypes (M ++ "/".toList)
      = some { Main := M, Tree := [], Sub := [], Suf := [], Params := [] } := by
    have := splitTypes_plain M [] [] [] hM (by simp) (by simp) (by rfl)
    simpa [MainSubSplitCharacter] using this
  have e2 : splitTypes M
      = some { Main := M, Tree := [], Sub := [], Suf := [], Params := [] } :=
    splitTypes_single M M (Split_of_not_mem M _ hM)
  refine ⟨by rw [e1, e2], e1, ?_, ?_⟩
  · rw [e1]; simp [MediaTypeMutable.FullType]
  · rw [e2]; simp [MediaTypeMutable.FullType]

/-- The input `"text/"` as an instance of C20. -/
theorem splitTypes_trailing_slash_witness :
    splitTypes "text/".toList = splitTypes "text".toList
    ∧ splitTypes "text/".toList
        = some { Main := "text".toList, Tree := [], Sub := [], Suf := [], Params := [] }
    ∧ (splitTypes "text/".toList).map MediaTypeMutable.FullType = some "text".toList
    ∧ (splitTypes "text".toList).map MediaTypeMutable.FullType = some "text".toList :=
  splitTypes_trailing_slash "text".toList (by decide)

/-! ## Snapshots and later mutations -/

/-- One mutation of a struct whose containers are not those at the addresses
`sa` and `sp` leaves the array at `sa` and the map at `sp` as they are, and the
struct's containers stay apart from them. -/
theorem Mutation.apply_frame (sa sp : Nat) (h h2 : Heap) (c c2 : MutableCell) (op : Mutation)
    (hop : op.apply h c = some (h2, c2))
    (h1 : c.Tree.len ≤ c.Tree.cap) (h2a : c.Tree.cap = 0 ∨ c.Tree.array ≠ sa)
    (h3 : sa < h.nextArray) (h4 : c.Params ≠ some sp) :
    (c2.Tree.len ≤ c2.Tree.cap ∧ (c2.Tree.cap = 0 ∨ c2.Tree.array ≠ sa)
      ∧ sa < h2.nextArray ∧ c2.Params ≠ some sp)
    ∧ h2.arrays sa = h.arrays sa ∧ h2.maps sp = h.maps sp := by
  cases op with
  | setMain x =>
    simp only [Mutation.apply, Option.some.injEq, Prod.mk.injEq] at hop
    obtain ⟨rfl, rfl⟩ := hop
    exact ⟨⟨h1, h2a, h3, h4⟩, rfl, rfl⟩
  | setSub x =>
    simp only [Mutation.apply, Option.some.injEq, Prod.mk.injEq] at hop
    obtain ⟨rfl, rfl⟩ := hop
    exact ⟨⟨h1, h2a, h3, h4⟩, rfl, rfl⟩
  | setSuf x =>
    simp only [Mutation.apply, Option.some.injEq, Prod.mk.injEq] at hop
    obtain ⟨rfl, rfl⟩ := hop
    exact ⟨⟨h1, h2a, h3, h4⟩, rfl, rfl⟩
  | setTreeElem i x =>
    simp only [Mutation.apply] at hop
    split at hop
    · rename_i hi
      simp only [Option.some.injEq, Prod.mk.injEq] at hop
      obtain ⟨rfl, rfl⟩ := hop
      have hne : sa ≠ c.Tree.array := by
        rcases h2a with h0 | h0
        · omega
        · exact fun e => h0 e.symm
      exact ⟨⟨h1, h2a, h3, h4⟩, by simp [Heap.writeArray, hne], rfl⟩
    · cases hop
  | appendTree x =>
    simp only [Mutation.apply] at hop
    split at hop
    · rename_i hi
      simp only [Option.some.injEq, Prod.mk.injEq] at hop
      obtain ⟨rfl, rfl⟩ := hop
      have hne : sa ≠ c.Tree.array := by
        rcases h2a with h0 | h0
        · omega
        · exact fun e => h0 e.symm
      exact ⟨⟨hi, h2a, h3, h4⟩, by simp [Heap.writeArray, hne], rfl⟩
    · simp only [Option.some.injEq, Prod.mk.injEq] at hop
      obtain ⟨rfl, rfl⟩ := hop
      have hne : sa ≠ h.nextArray := by omega
      refine ⟨⟨?_, Or.inr (fun e => hne e.symm), ?_, h4⟩, by simp [Heap.writeArray, hne], rfl⟩
      · show c.Tree.len + 1 ≤ 2 * c.Tree.cap + 1
        omega
      · show sa < h.nextArray + 1
        omega
  | setParam k v =>
    simp only [Mutation.apply] at hop
    split at hop
    · cases hop
    · rename_i a ha
      simp only [Option.some.injEq, Prod.mk.injEq] at hop
      obtain ⟨rfl, rfl⟩ := hop
      have hne : sp ≠ a := fun e => h4 (by rw [ha, e])
      exact ⟨⟨h1, h2a, h3, h4⟩, rfl, by simp [Heap.writeMap, hne]⟩
  | deleteParam k =>
    simp only [Mutation.apply] at hop
    split at hop
    · simp only [Option.some.injEq, Prod.mk.injEq] at hop
      obtain ⟨rfl, rfl⟩ := hop
      exact ⟨⟨h1, h2a, h3, h4⟩, rfl, rfl⟩
    · rename_i a ha
      simp only [Option.some.injEq, Prod.mk.injEq] at hop
      obtain ⟨rfl, rfl⟩ := hop
      have hne : sp ≠ a := fun e => h4 (by rw [ha, e])
      exact ⟨⟨h1, h2a, h3, h4⟩, rfl, by simp [Heap.writeMap, hne]⟩

/-- The same for a sequence of mutations. -/
theorem applyAll_frame (sa sp : Nat) (ops : List Mutation) :
    ∀ (h h2 : Heap) (c c2 : MutableCell), applyAll h c ops = some (h2, c2) →
      c.Tree.len ≤ c.Tree.cap → (c.Tree.cap = 0 ∨ c.Tree.array ≠ sa) →
      sa < h.nextArray → c.Params ≠ some sp →
      (c2.Tree.cap = 0 ∨ c2.Tree.array ≠ sa) ∧ c2.Params ≠ some sp
        ∧ h2.arrays sa = h.arrays sa ∧ h2.maps sp = h.maps sp := by
  induction ops with
  | nil =>
    intro h h2 c c2 hrun h1 h2a h3 h4
    simp only [applyAll, Option.some.injEq, Prod.mk.injEq] at hrun
    obtain ⟨rfl, rfl⟩ := hrun
    exact ⟨h2a, h4, rfl, rfl⟩
  | cons op ops ih =>
    intro h h2 c c2 hrun h1 h2a h3 h4
    simp only [applyAll] at hrun
    cases hop : op.apply h c with
    | none => rw [hop] at hrun; cases hrun
    | some r =>
      obtain ⟨hm, cm⟩ := r
      rw [hop] at hrun
      simp only [Option.some_bind] at hrun
      obtain ⟨⟨i1, i2, i3, i4⟩, ea, em⟩ :=
        Mutation.apply_frame sa sp h hm c cm op hop h1 h2a h3 h4
      obtain ⟨r1, r2, r3, r4⟩ := ih hm h2 cm c2 hrun i1 i2 i3 i4
      exact ⟨r1, r2, r3.trans ea, r4.trans em⟩

/-- The snapshot holds the field values of the struct at the conversion. -/
theorem Immutable_value (h : Heap) (m : MutableCell) :
    (m.Immutable h).2.value (m.Immutable h).1 = m.value h := by
  simp [MutableCell.Immutable, NewImmutableAsContainer, MediaTypeImmutable.value,
    MutableCell.value, Heap.readSlice]

/-- Claim C16: immutability of snapshots.  After `s = m.Immutable()`, no later
mutation of the mutable model `m` (assigning `Main`, `Sub` or `Suf`,
overwriting an element of `Tree` or appending to `Tree`, inserting into or
deleting from `Params`) changes the values the accessors of `s` return: they
stay the field values of `m` at the conversion.  The `Tree` sequence and the
`Params` mapping of the snapshot are copies at addresses of their own, never
the containers of `m`. -/
theorem Immutable_frozen (h : Heap) (m : MutableCell) (hwf : WellFormed h m)
    (ops : List Mutation) (h2 : Heap) (m2 : MutableCell)
    (hrun : applyAll (m.Immutable h).1 m ops = some (h2, m2)) :
    (m.Immutable h).2.value h2 = m.value h
    ∧ ((m.Immutable h).2.value h2).FullType = (m.value h).FullType
    ∧ ((m.Immutable h).2.value h2).Prefix = (m.value h).Prefix
    ∧ (m.Tree.cap = 0 ∨ m.Tree.array ≠ (m.Immutable h).2.tree.array)
    ∧ m.Params ≠ some (m.Immutable h).2.params
    ∧ (m2.Tree.cap = 0 ∨ m2.Tree.array ≠ (m.Immutable h).2.tree.array)
    ∧ m2.Params ≠ some (m.Immutable h).2.params := by
  obtain ⟨w1, w2, w3⟩ := hwf
  have a2 : m.Tree.cap = 0 ∨ m.Tree.array ≠ h.nextArray := by
    rcases w2 with e | e
    · exact Or.inl e
    · exact Or.inr (by omega)
  have a4 : m.Params ≠ some h.nextMap := by
    intro e
    have := w3 _ e
    omega
  have a3 : h.nextArray < (m.Immutable h).1.nextArray := by
    show h.nextArray < h.nextArray + 1
    omega
  obtain ⟨r1, r2, r3, r4⟩ :=
    applyAll_frame h.nextArray h.nextMap ops _ h2 m m2 hrun w1 a2 a3 a4
  have hv : (m.Immutable h).2.value h2 = m.value h := by
    rw [← Immutable_value h m]
    show MediaTypeImmutable.value h2 _ = MediaTypeImmutable.value _ _
    simp only [MediaTypeImmutable.value, Heap.readSlice]
    have e1 : h2.arrays (m.Immutable h).2.tree.array
        = (m.Immutable h).1.arrays (m.Immutable h).2.tree.array := r3
    have e2 : h2.maps (m.Immutable h).2.params
        = (m.Immutable h).1.maps (m.Immutable h).2.params := r4
    rw [e1, e2]
  exact ⟨hv, by rw [hv], by rw [hv], a2, a4, r1, r2⟩

/-- A snapshot of `exampleCell` followed by mutations of every kind, as an
instance of C16: the mutations change every field of the mutable model and
none of the snapshot. -/
theorem Immutable_frozen_witness :
    WellFormed exampleHeap exampleCell
    ∧ ∃ h2 m2, applyAll (exampleCell.Immutable exampleHeap).1 exampleCell exampleMutations
        = some (h2, m2)
      ∧ (exampleCell.Immutable exampleHeap).2.value h2
          = { Main := "application".toList, Tree := ["vnd".toList], Sub := "text".toList,
              Suf := [], Params := [("charset".toList, "utf-8".toList)] }
      ∧ m2.value h2
          = { Main := "x".toList, Tree := ["y".toList, "z".toList, "w".toList],
              Sub := "s".toList, Suf := "f".toList,
              Params := [("a".toList, "b".toList)] } := by
  have hwf : WellFormed exampleHeap exampleCell :=
    ⟨by decide, Or.inr (by decide), by intro a ha; cases ha; decide⟩
  refine ⟨hwf, _, _, rfl, ?_, ?_⟩
  · exact (Immutable_frozen exampleHeap exampleCell hwf exampleMutations _ _ rfl).1.trans
      (by decide)
  · decide

/-! ## The order of the parameter names -/

theorem strLe_cons (a b : Char) (as bs : Str) :
    strLe (a :: as) (b :: bs) = true ↔ a < b ∨ (a = b ∧ strLe as bs = true) := by
  simp [strLe]

theorem strLe_total (a b : Str) : strLe a b = true ∨ strLe b a = true := by
  induction a generalizing b with
  | nil => exact Or.inl rfl
  | cons x xs ih =>
    cases b with
    | nil => exact Or.inr rfl
    | cons y ys =>
      rw [strLe_cons, strLe_cons]
      rcases lt_trichotomy x y with h | h | h
      · exact Or.inl (Or.inl h)
      · rcases ih ys with e | e
        · exact Or.inl (Or.inr ⟨h, e⟩)
        · exact Or.inr (Or.inr ⟨h.symm, e⟩)
      · exact Or.inr (Or.inl h)

theorem strLe_trans (a b c : Str) (hab : strLe a b = true) (hbc : strLe b c = true) :
    strLe a c = true := by
  induction a generalizing b c with
  | nil => rfl
  | cons x xs ih =>
    cases b with
    | nil => simp [strLe] at hab
    | cons y ys =>
      cases c with
      | nil => simp [strLe] at hbc
      | cons z zs =>
        rw [strLe_cons] at hab hbc ⊢
        rcases hab with h1 | ⟨h1, e1⟩
        · rcases hbc with h2 | ⟨h2, -⟩
          · exact Or.inl (lt_trans h1 h2)
          · exact Or.inl (h2 ▸ h1)
        · rcases hbc with h2 | ⟨h2, e2⟩
          · exact Or.inl (h1 ▸ h2)
          · exact Or.inr ⟨h1.trans h2, ih ys zs e1 e2⟩

theorem strLe_antisymm (a b : Str) (hab : strLe a b = true) (hba : strLe b a = true) :
    a = b := by
  induction a generalizing b with
  | nil =>
    cases b with
    | nil => rfl
    | cons y ys => simp [strLe] at hba
  | cons x xs ih =>
    cases b with
    | nil => simp [strLe] at hab
    | cons y ys =>
      rw [strLe_cons] at hab hba
      rcases hab with h1 | ⟨h1, e1⟩
      · rcases hba with h2 | ⟨h2, -⟩
        · exact absurd (lt_trans h1 h2) (lt_irrefl _)
        · exact absurd (h2 ▸ h1) (lt_irrefl _)
      · rcases hba with h2 | ⟨-, e2⟩
        · exact absurd (h1 ▸ h2) (lt_irrefl _)
        · rw [h1, ih ys e1 e2]

/-- The sorted list of names is the list of names in increasing order, whatever
the order they are given in. -/
theorem sortStrings_eq (l l2 : List Str) (hperm : l2.Perm l)
    (hsorted : l2.Pairwise fun a b => strLe a b = true ∧ a ≠ b) :
    sortStrings l = l2 := by
  have hs2 : l2.Sorted (fun a b => strLe a b = true) := hsorted.imp (fun h => h.1)
  have hs1 : (sortStrings l).Sorted (fun a b => strLe a b = true) :=
    @List.sorted_insertionSort _ (fun a b => strLe a b = true) _
      ⟨strLe_total⟩ ⟨strLe_trans⟩ l
  have hp : (sortStrings l).Perm l2 :=
    (List.perm_insertionSort _ l).trans hperm.symm
  exact @List.eq_of_perm_of_sorted _ (fun a b => strLe a b = true) ⟨strLe_antisymm⟩ _ _
    hp hs1 hs2

/-- In a map, a name has the value it is listed with. -/
theorem mapGet_of_mem (l : List (Str × Str)) (hnd : (l.map Prod.fst).Nodup)
    (k v : Str) (h : (k, v) ∈ l) : mapGet l k = v := by
  induction l with
  | nil => simp at h
  | cons e rest ih =>
    obtain ⟨k2, v2⟩ := e
    simp only [List.map_cons, List.nodup_cons] at hnd
    rcases List.mem_cons.1 h with e | e
    · cases e
      simp [mapGet]
    · have hne : k2 ≠ k := by
        intro e2
        subst e2
        exact hnd.1 (List.mem_map.2 ⟨(k2, v), e, rfl⟩)
      simp only [mapGet, if_neg hne]
      exact ih hnd.2 e

/-! ## Tokens and the type part of the formatter -/

theorem isToken_iff (s : Str) :
    isToken s = true ↔ s ≠ [] ∧ ∀ c ∈ s, isTokenChar c = true := by
  by_cases h : s = []
  · simp [isToken, h]
  · simp [isToken, h, List.all_eq_true]

theorem ToLower_eq (s : Str) (h : ∀ c ∈ s, c.toLower = c) : ToLower s = s := by
  induction s with
  | nil => rfl
  | cons c cs ih =>
    simp only [ToLower, List.map_cons] at ih ⊢
    rw [h c (List.mem_cons_self _ _), ih (fun d hd => h d (List.mem_cons_of_mem _ hd))]

theorem LowerTokenChars.isToken (s : Str) (hne : s ≠ []) (h : LowerTokenChars s) :
    isToken s = true :=
  (isToken_iff s).2 ⟨hne, fun c hc => (h c hc).1⟩

theorem LowerTokenChars.ToLower (s : Str) (h : LowerTokenChars s) : ToLower s = s :=
  ToLower_eq s (fun c hc => (h c hc).2)

theorem LowerTokenChars.no_slash (s : Str) (h : LowerTokenChars s) : '/' ∉ s := by
  intro hc
  have := (h _ hc).1
  revert this
  decide

theorem LowerTokenChars.append (a b : Str) (ha : LowerTokenChars a) (hb : LowerTokenChars b) :
    LowerTokenChars (a ++ b) := by
  intro c hc
  rcases List.mem_append.1 hc with h | h
  · exact ha c h
  · exact hb c h

theorem LowerTokenChars.cons (c : Char) (s : Str) (hc : isTokenChar c = true ∧ c.toLower = c)
    (hs : LowerTokenChars s) : LowerTokenChars (c :: s) := by
  intro d hd
  rcases List.mem_cons.1 hd with h | h
  · exact h ▸ hc
  · exact hs d h

theorem LowerTokenChars.Join (l : List Str) (h : ∀ w ∈ l, LowerTokenChars w) :
    LowerTokenChars (Join l TreeSeparatorCharacter) := by
  intro c hc
  rcases mem_Join l _ c hc with e | ⟨w, hw, hcw⟩
  · rw [e]; decide
  · exact h w hw c hcw

theorem after_append_sep (sep : Char) (a b : Str) (h : sep ∉ a) :
    after sep (a ++ sep :: b) = b := by
  induction a with
  | nil => exact after_cons_self sep b
  | cons c cs ih =>
    have hc : c ≠ sep := fun e => h (by simp [e])
    have hcs : sep ∉ cs := fun e => h (by simp [e])
    rw [List.cons_append, after_cons_ne sep c _ hc, ih hcs]

/-- A single lower-case token is written as it is. -/
theorem formatType_token (t : Str) (hne : t ≠ []) (h : LowerTokenChars t) :
    formatType t = some t := by
  have hs := LowerTokenChars.no_slash t h
  simp [formatType, Cut, hs, LowerTokenChars.isToken t hne h, LowerTokenChars.ToLower t h]

/-- Two lower-case tokens around a `/` are written as they are. -/
theorem formatType_pair (a b : Str) (ha : a ≠ []) (hb : b ≠ [])
    (hla : LowerTokenChars a) (hlb : LowerTokenChars b) :
    formatType (a ++ '/' :: b) = some (a ++ '/' :: b) := by
  have hs := LowerTokenChars.no_slash a hla
  have hmem : '/' ∈ a ++ '/' :: b := by simp
  simp only [formatType, Cut, if_pos hmem, before_append_sep '/' a b hs,
    after_append_sep '/' a b hs, LowerTokenChars.isToken a ha hla,
    LowerTokenChars.isToken b hb hlb, LowerTokenChars.ToLower a hla,
    LowerTokenChars.ToLower b hlb]
  simp

/-- The full type of a model with a non-empty `Main` whose fields are made of
lower-case token characters is written as it is. -/
theorem formatType_FullType (m : MediaTypeMutable) (hMain : m.Main ≠ [] ∧ LowerTokenChars m.Main)
    (hTree : ∀ t ∈ m.Tree, LowerTokenChars t) (hSub : LowerTokenChars m.Sub)
    (hSuf : LowerTokenChars m.Suf) :
    formatType m.FullType = some m.FullType := by
  rw [FullType_eq]
  by_cases h0 : m.Tree = [] ∧ m.Sub = [] ∧ m.Suf = []
  · rw [if_pos h0, List.append_nil]
    exact formatType_token _ hMain.1 hMain.2
  · rw [if_neg h0]
    have hall : ∀ w ∈ m.Tree ++ [m.Sub], LowerTokenChars w := by
      intro w hw
      rcases List.mem_append.1 hw with h | h
      · exact hTree w h
      · simp only [List.mem_singleton] at h; exact h ▸ hSub
    have hJ := LowerTokenChars.Join _ hall
    apply formatType_pair _ _ hMain.1
    · by_cases hF : m.Suf = []
      · rw [if_pos hF, List.append_nil]
        exact Join_append_singleton_ne_nil _ _ _ (fun h => h0 ⟨h.1, h.2, hF⟩)
      · rw [if_neg hF]; simp [SuffixCharacter]
    · exact hMain.2
    · apply LowerTokenChars.append _ _ hJ
      by_cases hF : m.Suf = []
      · rw [if_pos hF]; intro c hc; simp at hc
      · rw [if_neg hF]
        exact LowerTokenChars.cons _ _ (by decide) hSuf

/-- A token needs no encoding. -/
theorem needsEncoding_of_isToken (v : Str) (h : isToken v = true) : needsEncoding v = false := by
  obtain ⟨-, hc⟩ := (isToken_iff v).1 h
  simp only [needsEncoding, List.any_eq_false]
  intro c hcv
  have := hc c hcv
  simp only [isTokenChar, Bool.and_eq_true, decide_eq_true_eq] at this
  simp only [Bool.and_eq_true, Bool.or_eq_true, decide_eq_true_eq, not_and]
  intro h1
  omega

theorem formatValue_of_isToken (v : Str) (h : isToken v = true) : formatValue v = '=' :: v := by
  simp [formatValue, needsEncoding_of_isToken v h, h]

/-- The loop over parameters with lower-case token names and token values
writes `; name=value` for each of them. -/
theorem formatParams_eq (param : List (Str × Str)) (hnd : (param.map Prod.fst).Nodup)
    (qs : List (Str × Str))
    (hq : ∀ p ∈ qs, p ∈ param ∧ p.1 ≠ [] ∧ LowerTokenChars p.1 ∧ isToken p.2 = true) :
    formatParams param (qs.map Prod.fst) = some (qs.flatMap paramText) := by
  induction qs with
  | nil => rfl
  | cons q rest ih =>
    obtain ⟨hmem, hne, hl, hv⟩ := hq q (List.mem_cons_self _ _)
    have hrest := ih (fun p hp => hq p (List.mem_cons_of_mem _ hp))
    have hget : mapGet param q.1 = q.2 := mapGet_of_mem param hnd q.1 q.2 hmem
    simp only [List.map_cons, formatParams, LowerTokenChars.isToken q.1 hne hl,
      LowerTokenChars.ToLower q.1 hl, hrest, hget, formatValue_of_isToken q.2 hv]
    simp [paramText]

/-- The loop stops with a failure when some name is not a token. -/
theorem formatParams_none (param : List (Str × Str)) (names : List Str)
    (h : ∃ n ∈ names, isToken n = false) : formatParams param names = none := by
  induction names with
  | nil => obtain ⟨n, hn, -⟩ := h; simp at hn
  | cons a rest ih =>
    by_cases ha : isToken a = true
    · obtain ⟨n, hn, hf⟩ := h
      rcases List.mem_cons.1 hn with e | e
      · rw [e, ha] at hf; cases hf
      · simp [formatParams, ha, ih ⟨n, e, hf⟩]
    · simp [formatParams, ha]

/-- When the loop succeeds, what it wrote for each name is part of the
output. -/
theorem formatParams_infix (param : List (Str × Str)) (names : List Str) (out : Str)
    (h : formatParams param names = some out) :
    ∀ n ∈ names, ("; ".toList ++ ToLower n ++ formatValue (mapGet param n)) <:+: out := by
  induction names generalizing out with
  | nil => intro n hn; simp at hn
  | cons a rest ih =>
    simp only [formatParams] at h
    split at h
    · cases h
    · cases hr : formatParams param rest with
      | none => rw [hr] at h; cases h
      | some o =>
        rw [hr] at h
        simp only [Option.map_some', Option.some.injEq] at h
        intro n hn
        rcases List.mem_cons.1 hn with e | e
        · subst e
          exact ⟨[], o, by rw [← h]; simp⟩
        · obtain ⟨s1, t1, e1⟩ := ih o hr n e
          refine ⟨"; ".toList ++ ToLower a ++ formatValue (mapGet param a) ++ s1, t1, ?_⟩
          rw [← h, ← e1]
          simp

/-- The type part, when it is written, is not empty. -/
theorem formatType_ne_nil (t b : Str) (h : formatType t = some b) : b ≠ [] := by
  simp only [formatType] at h
  split at h
  · split at h
    · cases h
    · rename_i hx ht
      simp only [Option.some.injEq] at h
      have ht2 : isToken t = true := by simpa using ht
      have := ((isToken_iff t).1 ht2).1
      rw [← h]
      simpa [ToLower] using this
  · split at h
    · cases h
    · simp only [Option.some.injEq] at h
      rw [← h]
      simp

/-! ## The claims about `String` -/

/-- Claim C13, refuted as stated: for the model with `Main = "Text"`,
`Sub = "html"` and no parameters, `FullType` is `"Text/html"` and `String` is
`"text/html"`; and for the model with `Main = "text"`, `Sub = "html"` and the
parameter `v` with the empty value, `String` writes the value in quotes. -/
theorem String_ne_FullType :
    MediaTypeMutable.FullType
        { Main := "Text".toList, Tree := [], Sub := "html".toList, Suf := [], Params := [] }
      = "Text/html".toList
    ∧ MediaTypeMutable.String
        { Main := "Text".toList, Tree := [], Sub := "html".toList, Suf := [], Params := [] }
      = "text/html".toList
    ∧ MediaTypeMutable.String
        { Main := "Text".toList, Tree := [], Sub := "html".toList, Suf := [], Params := [] }
      ≠ MediaTypeMutable.FullType
        { Main := "Text".toList, Tree := [], Sub := "html".toList, Suf := [], Params := [] }
    ∧ MediaTypeMutable.String
        { Main := "text".toList, Tree := [], Sub := "html".toList, Suf := [],
          Params := [("v".toList, [])] }
      = "text/html; v=".toList ++ [Char.ofNat 34, Char.ofNat 34] := by
  decide

/-- Claim C13, amended: for every model whose `Main` is not empty, whose `Main`,
`Tree` segments, `Sub` and `Suf` are made of token characters without
upper-case letters, whose parameter names are distinct non-empty strings of
such characters and whose parameter values are tokens, `String` equals
`FullType` followed, for each parameter in name order, by `; name=value`
unquoted; with an empty parameter mapping `String` equals `FullType`. -/
theorem String_eq_FullType_params (m : MediaTypeMutable) (ps : List (Str × Str))
    (hMain : m.Main ≠ [] ∧ LowerTokenChars m.Main)
    (hTree : ∀ t ∈ m.Tree, LowerTokenChars t) (hSub : LowerTokenChars m.Sub)
    (hSuf : LowerTokenChars m.Suf)
    (hperm : ps.Perm m.Params)
    (hsorted : (ps.map Prod.fst).Pairwise fun a b => strLe a b = true ∧ a ≠ b)
    (hnames : ∀ p ∈ ps, p.1 ≠ [] ∧ LowerTokenChars p.1)
    (hvalues : ∀ p ∈ ps, isToken p.2 = true) :
    m.String = m.FullType ++ ps.flatMap paramText
    ∧ (m.Params = [] → m.String = m.FullType) := by
  have hkeys : (ps.map Prod.fst).Perm (m.Params.map Prod.fst) := hperm.map _
  have hnd2 : (ps.map Prod.fst).Nodup := hsorted.imp (fun h => h.2)
  have hnd : (m.Params.map Prod.fst).Nodup := hkeys.nodup_iff.1 hnd2
  have hsort : sortStrings (m.Params.map Prod.fst) = ps.map Prod.fst :=
    sortStrings_eq _ _ hkeys hsorted
  have hpar : formatParams m.Params (ps.map Prod.fst) = some (ps.flatMap paramText) :=
    formatParams_eq m.Params hnd ps
      (fun p hp => ⟨hperm.subset hp, (hnames p hp).1, (hnames p hp).2, hvalues p hp⟩)
  have hmain : m.String = m.FullType ++ ps.flatMap paramText := by
    simp [MediaTypeMutable.String, FormatMediaType, formatMediaTypeText,
      formatType_FullType m hMain hTree hSub hSuf, hsort, hpar]
  refine ⟨hmain, fun he => ?_⟩
  rw [hmain]
  have : ps = [] := by
    rw [he] at hperm
    exact List.Perm.eq_nil hperm
  simp [this]

/-- The model with `Main = "text"`, `Sub = "html"` and the parameter `charset`
with value `UTF-8`, and a model with a tree, a suffix and two parameters listed
out of order, as instances of the amended C13. -/
theorem String_eq_FullType_params_witness :
    MediaTypeMutable.String
        { Main := "text".toList, Tree := [], Sub := "html".toList, Suf := [],
          Params := [("charset".toList, "UTF-8".toList)] }
      = "text/html; charset=UTF-8".toList
    ∧ MediaTypeMutable.String
        { Main := "application".toList, Tree := ["vnd".toList], Sub := "api".toList,
          Suf := "json".toList,
          Params := [("version".toList, "2".toList), ("charset".toList, "utf-8".toList)] }
      = "application/vnd.api+json; charset=utf-8; version=2".toList :=
  ⟨(String_eq_FullType_params
      { Main := "text".toList, Tree := [], Sub := "html".toList, Suf := [],
        Params := [("charset".toList, "UTF-8".toList)] }
      [("charset".toList, "UTF-8".toList)]
      (by decide) (by decide) (by decide) (by decide) (List.Perm.refl _) (by decide)
      (by decide) (by decide)).1,
   (String_eq_FullType_params
      { Main := "application".toList, Tree := ["vnd".toList], Sub := "api".toList,
        Suf := "json".toList,
        Params := [("version".toList, "2".toList), ("charset".toList, "utf-8".toList)] }
      [("charset".toList, "utf-8".toList), ("version".toList, "2".toList)]
      (by decide) (by decide) (by decide) (by decide) (List.Perm.swap _ _ _) (by decide)
      (by decide) (by decide)).1⟩

/-! ## The text written for a value determines the value -/

theorem Char.toNat_lt_max (c : Char) : c.toNat < 0x110000 := by
  have h := c.valid
  simp only [UInt32.isValidChar, Nat.isValidChar] at h
  have e : c.toNat = c.val.toNat := rfl
  omega

theorem Char.toNat_ofNat_small (b : Nat) (h : b < 0xD800) : (Char.ofNat b).toNat = b := by
  have hv : b.isValidChar := Or.inl h
  simp only [Char.ofNat, hv, Char.ofNatAux, Char.toNat, dite_true]
  rfl

theorem Char.eq_of_toNat_eq (c d : Char) (h : c.toNat = d.toNat) : c = d := by
  rw [← Char.ofNat_toNat c, ← Char.ofNat_toNat d, h]

/-- Concatenating the code words of a prefix code is injective. -/
theorem flatMap_injective_of_code {α β : Type} (f : α → List β) (P : α → Prop)
    (hne : ∀ a, P a → f a ≠ [])
    (hcode : ∀ a b x y, P a → P b → f a ++ x = f b ++ y → a = b ∧ x = y) :
    ∀ l1 l2 : List α, (∀ a ∈ l1, P a) → (∀ b ∈ l2, P b) →
      l1.flatMap f = l2.flatMap f → l1 = l2 := by
  intro l1
  induction l1 with
  | nil =>
    intro l2 _ h2 h
    cases l2 with
    | nil => rfl
    | cons b l2 =>
      simp only [List.flatMap_nil, List.flatMap_cons] at h
      have := hne b (h2 b (List.mem_cons_self _ _))
      exact absurd (List.append_eq_nil.1 h.symm).1 this
  | cons a l1 ih =>
    intro l2 h1 h2 h
    cases l2 with
    | nil =>
      simp only [List.flatMap_nil, List.flatMap_cons] at h
      have := hne a (h1 a (List.mem_cons_self _ _))
      exact absurd (List.append_eq_nil.1 h).1 this
    | cons b l2 =>
      simp only [List.flatMap_cons] at h
      obtain ⟨e1, e2⟩ := hcode a b _ _ (h1 a (List.mem_cons_self _ _))
        (h2 b (List.mem_cons_self _ _)) h
      rw [e1, ih l2 (fun c hc => h1 c (List.mem_cons_of_mem _ hc))
        (fun c hc => h2 c (List.mem_cons_of_mem _ hc)) e2]

theorem utf8Bytes_lt (c : Char) : ∀ b ∈ utf8Bytes c, b < 256 := by
  have hc := Char.toNat_lt_max c
  intro b hb
  unfold utf8Bytes at hb
  simp only at hb
  split_ifs at hb <;> simp only [List.mem_cons, List.mem_singleton, List.not_mem_nil,
    or_false] at hb <;> omega

theorem utf8Bytes_ne_nil (c : Char) : utf8Bytes c ≠ [] := by
  unfold utf8Bytes
  simp only
  split_ifs <;> simp

/-- UTF-8 is a prefix code. -/
theorem utf8Bytes_code (c d : Char) (x y : List Nat)
    (h : utf8Bytes c ++ x = utf8Bytes d ++ y) : c = d ∧ x = y := by
  have hc := Char.toNat_lt_max c
  have hd := Char.toNat_lt_max d
  have key : c.toNat = d.toNat ∧ x = y := by
    unfold utf8Bytes at h
    simp only at h
    split_ifs at h <;>
      simp only [List.cons_append, List.nil_append, List.cons.injEq] at h <;>
      first
      | (obtain ⟨h1, h2⟩ := h; exact ⟨by omega, h2⟩)
      | (obtain ⟨h1, h2, h3⟩ := h; exact ⟨by omega, h3⟩)
      | (obtain ⟨h1, h2, h3, h4⟩ := h; exact ⟨by omega, h4⟩)
      | (obtain ⟨h1, h2, h3, h4, h5⟩ := h; exact ⟨by omega, h5⟩)
      | (obtain ⟨h1, -⟩ := h; exfalso; omega)
  exact ⟨Char.eq_of_toNat_eq c d key.1, key.2⟩

theorem upperhex_toNat (i : Nat) (hi : i < 16) :
    (upperhex.getD i '0').toNat = if i < 10 then 48 + i else 55 + i := by
  interval_cases i <;> rfl

theorem upperhex_inj (i j : Nat) (hi : i < 16) (hj : j < 16)
    (h : upperhex.getD i '0' = upperhex.getD j '0') : i = j := by
  have h1 := upperhex_toNat i hi
  have h2 := upperhex_toNat j hj
  rw [h] at h1
  rw [h1] at h2
  split_ifs at h2 <;> omega

theorem percentEncodeByte_ne_nil (b : Nat) : percentEncodeByte b ≠ [] := by
  unfold percentEncodeByte
  split_ifs <;> simp

/-- The encoding of bytes is a prefix code. -/
theorem percentEncodeByte_code (a b : Nat) (x y : Str) (ha : a < 256) (hb : b < 256)
    (h : percentEncodeByte a ++ x = percentEncodeByte b ++ y) : a = b ∧ x = y := by
  unfold percentEncodeByte at h
  split_ifs at h with h1 h2 h2
  · simp only [List.cons_append, List.nil_append, List.cons.injEq, true_and] at h
    obtain ⟨e1, e2, e3⟩ := h
    have d1 := upperhex_inj _ _ (by omega) (by omega) e1
    have d2 := upperhex_inj _ _ (by omega) (by omega) e2
    exact ⟨by omega, e3⟩
  · simp only [List.cons_append, List.nil_append, List.cons.injEq] at h
    have e := congrArg Char.toNat h.1
    rw [Char.toNat_ofNat_small b (by omega)] at e
    exact absurd (Or.inr (Or.inr (Or.inr (Or.inr (Or.inl e.symm))))) h2
  · simp only [List.cons_append, List.nil_append, List.cons.injEq] at h
    have e := congrArg Char.toNat h.1
    rw [Char.toNat_ofNat_small a (by omega)] at e
    exact absurd (Or.inr (Or.inr (Or.inr (Or.inr (Or.inl e))))) h1
  · simp only [List.cons_append, List.nil_append, List.cons.injEq] at h
    have e := congrArg Char.toNat h.1
    rw [Char.toNat_ofNat_small a (by omega), Char.toNat_ofNat_small b (by omega)] at e
    exact ⟨e, h.2⟩

/-- The encoding of RFC 2231 loses nothing of the value. -/
theorem percentEncode_injective (v w : Str) (h : percentEncode v = percentEncode w) :
    v = w := by
  have hb : v.flatMap utf8Bytes = w.flatMap utf8Bytes := by
    apply flatMap_injective_of_code percentEncodeByte (fun b => b < 256)
      (fun b _ => percentEncodeByte_ne_nil b)
      (fun a b x y ha hb e => percentEncodeByte_code a b x y ha hb e)
    · intro b hb
      obtain ⟨c, -, hc⟩ := List.mem_flatMap.1 hb
      exact utf8Bytes_lt c b hc
    · intro b hb
      obtain ⟨c, -, hc⟩ := List.mem_flatMap.1 hb
      exact utf8Bytes_lt c b hc
    · exact h
  exact flatMap_injective_of_code utf8Bytes (fun _ => True)
    (fun c _ => utf8Bytes_ne_nil c)
    (fun c d x y _ _ e => utf8Bytes_code c d x y e)
    v w (fun _ _ => trivial) (fun _ _ => trivial) hb

theorem escape_code (a b : Char) (x y : Str)
    (h : (if a = Char.ofNat 34 ∨ a = Char.ofNat 92 then [Char.ofNat 92, a] else [a]) ++ x
      = (if b = Char.ofNat 34 ∨ b = Char.ofNat 92 then [Char.ofNat 92, b] else [b]) ++ y) :
    a = b ∧ x = y := by
  split_ifs at h with h1 h2 h2
  · simp only [List.cons_append, List.nil_append, List.cons.injEq, true_and] at h
    exact h
  · simp only [List.cons_append, List.nil_append, List.cons.injEq] at h
    exact absurd (Or.inr h.1.symm) h2
  · simp only [List.cons_append, List.nil_append, List.cons.injEq] at h
    exact absurd (Or.inr h.1) h1
  · simp only [List.cons_append, List.nil_append, List.cons.injEq] at h
    exact h

/-- Quoting loses nothing of the value. -/
theorem quoteValue_injective (v w : Str) (h : quoteValue v = quoteValue w) : v = w := by
  unfold quoteValue at h
  have h1 := List.append_cancel_right h
  have h2 := List.append_cancel_left h1
  exact flatMap_injective_of_code _ (fun _ => True)
    (fun c _ => by split_ifs <;> simp)
    (fun a b x y _ _ e => escape_code a b x y e)
    v w (fun _ _ => trivial) (fun _ _ => trivial) h2

theorem token_ne_quoteValue (v w : Str) (hv : isToken v = true) : v ≠ quoteValue w := by
  intro h
  have hq : Char.ofNat 34 ∈ v := by rw [h]; simp [quoteValue]
  have h1 := ((isToken_iff v).1 hv).2 _ hq
  have h2 : isTokenChar (Char.ofNat 34) = false := by decide
  rw [h2] at h1
  cases h1

/-- The text written for a value determines the value: nothing of a value is
dropped or cut off. -/
theorem formatValue_injective (v w : Str) (h : formatValue v = formatValue w) : v = w := by
  have e : "*=utf-8".toList = ['*', '=', 'u', 't', 'f', '-', '8'] := rfl
  unfold formatValue at h
  rw [e] at h
  by_cases hv1 : needsEncoding v = true
  · by_cases hw1 : needsEncoding w = true
    · rw [if_pos hv1, if_pos hw1] at h
      exact percentEncode_injective v w (List.append_cancel_left h)
    · rw [if_pos hv1, if_neg hw1] at h
      split_ifs at h <;> simp at h
  · by_cases hw1 : needsEncoding w = true
    · rw [if_neg hv1, if_pos hw1] at h
      split_ifs at h <;> simp at h
    · rw [if_neg hv1, if_neg hw1] at h
      by_cases hv2 : isToken v = true
      · by_cases hw2 : isToken w = true
        · rw [if_pos hv2, if_pos hw2] at h
          exact (List.cons.inj h).2
        · rw [if_pos hv2, if_neg hw2] at h
          exact absurd (List.cons.inj h).2 (token_ne_quoteValue v w hv2)
      · by_cases hw2 : isToken w = true
        · rw [if_neg hv2, if_pos hw2] at h
          exact absurd (List.cons.inj h).2.symm (token_ne_quoteValue w v hw2)
        · rw [if_neg hv2, if_neg hw2] at h
          exact quoteValue_injective v w (List.cons.inj h).2

/-! ## When the formatter succeeds -/

theorem before_sep_after (sep : Char) (t : Str) (h : sep ∈ t) :
    before sep t ++ sep :: after sep t = t := by
  induction t with
  | nil => simp at h
  | cons c cs ih =>
    by_cases hc : c = sep
    · subst hc
      rw [before_cons_self, after_cons_self]
      rfl
    · have hcs : sep ∈ cs := by
        rcases List.mem_cons.1 h with e | e
        · exact absurd e.symm hc
        · exact e
      rw [before_cons_ne sep c cs hc, after_cons_ne sep c cs hc, List.cons_append, ih hcs]

theorem formatType_of_legal (t : Str) (h : LegalType t) : formatType t = some (ToLower t) := by
  unfold LegalType at h
  by_cases hs : '/' ∈ t
  · rw [if_pos hs] at h
    have e : ToLower (before '/' t) ++ '/' :: ToLower (after '/' t) = ToLower t := by
      conv => rhs; rw [← before_sep_after '/' t hs]
      simp [ToLower]
    simp only [formatType, Cut, if_pos hs, h.1, h.2, e]
    simp
  · rw [if_neg hs] at h
    simp [formatType, Cut, hs, h]

theorem formatType_of_not_legal (t : Str) (h : ¬ LegalType t) : formatType t = none := by
  unfold LegalType at h
  by_cases hs : '/' ∈ t
  · rw [if_pos hs] at h
    simp only [formatType, Cut, if_pos hs]
    by_cases h1 : isToken (before '/' t) = true
    · have h2 : isToken (after '/' t) = false := by
        cases hx : isToken (after '/' t)
        · rfl
        · exact absurd ⟨h1, hx⟩ h
      simp [h1, h2]
    · simp [h1]
  · rw [if_neg hs] at h
    simp [formatType, Cut, hs, h]

/-- The loop over names that are all tokens writes the text of every one of
them, in the order of the names. -/
theorem formatParams_full (param : List (Str × Str)) (hnd : (param.map Prod.fst).Nodup)
    (qs : List (Str × Str)) (hq : ∀ p ∈ qs, p ∈ param ∧ isToken p.1 = true) :
    formatParams param (qs.map Prod.fst) = some (qs.flatMap paramOutput) := by
  induction qs with
  | nil => rfl
  | cons q rest ih =>
    obtain ⟨hmem, hn⟩ := hq q (List.mem_cons_self _ _)
    have hrest := ih (fun p hp => hq p (List.mem_cons_of_mem _ hp))
    have hget : mapGet param q.1 = q.2 := mapGet_of_mem param hnd q.1 q.2 hmem
    simp only [List.map_cons, formatParams, hn, hrest, hget]
    simp [paramOutput]

/-- The result of `String` is empty exactly when the formatter failed. -/
theorem String_eq_nil_iff (m : MediaTypeMutable) :
    m.String = [] ↔ formatMediaTypeText m.FullType m.Params = none := by
  simp only [MediaTypeMutable.String, FormatMediaType]
  constructor
  · intro h
    cases hr : formatMediaTypeText m.FullType m.Params with
    | none => rfl
    | some r =>
      rw [hr] at h
      simp only [Option.getD_some] at h
      simp only [formatMediaTypeText] at hr
      cases hb : formatType m.FullType with
      | none => rw [hb] at hr; cases hr
      | some b =>
        rw [hb] at hr
        simp only [Option.some_bind, Option.map_eq_some'] at hr
        obtain ⟨out, -, e⟩ := hr
        have := formatType_ne_nil _ _ hb
        rw [h] at e
        exact absurd (List.append_eq_nil.1 e).1 this
  · intro h
    rw [h]; rfl

/-- The formatter fails exactly when the type is not legal or some parameter
name is not a token. -/
theorem formatMediaTypeText_eq_none_iff (t : Str) (param : List (Str × Str)) :
    formatMediaTypeText t param = none
      ↔ ¬ LegalType t ∨ ∃ p ∈ param, isToken p.1 = false := by
  have hmem : ∀ n, n ∈ sortStrings (param.map Prod.fst) ↔ n ∈ param.map Prod.fst :=
    fun n => (List.perm_insertionSort _ _).mem_iff
  constructor
  · intro h
    by_cases hl : LegalType t
    · right
      simp only [formatMediaTypeText, formatType_of_legal t hl, Option.some_bind,
        Option.map_eq_none'] at h
      by_contra hc
      have hall : ∀ n ∈ sortStrings (param.map Prod.fst), isToken n = true := by
        intro n hn
        obtain ⟨p, hp, e⟩ := List.mem_map.1 ((hmem n).1 hn)
        cases hx : isToken n
        · exact absurd ⟨p, hp, by rw [e]; exact hx⟩ hc
        · rfl
      have hsome : ∀ names : List Str, (∀ n ∈ names, isToken n = true) →
          formatParams param names ≠ none := by
        intro names
        induction names with
        | nil => intro _ hx; cases hx
        | cons a rest ih =>
          intro ha hx
          have h1 := ha a (List.mem_cons_self _ _)
          have h2 := ih (fun n hn => ha n (List.mem_cons_of_mem _ hn))
          simp only [formatParams, h1, Bool.not_true, Bool.false_eq_true, if_false,
            Option.map_eq_none'] at hx
          exact h2 hx
      exact hsome _ hall h
    · exact Or.inl hl
  · rintro (hl | ⟨p, hp, hf⟩)
    · simp [formatMediaTypeText, formatType_of_not_legal t hl]
    · have := formatParams_none param _
        ⟨p.1, (hmem p.1).2 (List.mem_map.2 ⟨p, hp, rfl⟩), hf⟩
      simp only [formatMediaTypeText, this]
      cases formatType t <;> rfl

/-! ## The claim about formatting failures -/

/-- Claim C14, refuted as stated: the model with the parameter name `b c`, which
is not a token, the zero model, which has no parameter at all, and a model with
the illegal type `te xt/html` and the legal parameter `charset` all give the
same result of `String`, the empty string.  A failure is reported in band, is
not told apart from the result for a model without any illegal parameter, and
the legal parameter of the third model is dropped with the rest. -/
theorem String_failure_in_band :
    (∃ p ∈ [("b c".toList, "x".toList)], isToken p.1 = false)
    ∧ MediaTypeMutable.String
        { Main := "text".toList, Tree := [], Sub := "html".toList, Suf := [],
          Params := [("b c".toList, "x".toList)] } = []
    ∧ MediaTypeMutable.zero.Params = []
    ∧ MediaTypeMutable.zero.String = []
    ∧ MediaTypeMutable.String
        { Main := "text".toList, Tree := [], Sub := "html".toList, Suf := [],
          Params := [("b c".toList, "x".toList)] } = MediaTypeMutable.zero.String
    ∧ (∀ p ∈ [("charset".toList, "utf-8".toList)], isToken p.1 = true ∧ isToken p.2 = true)
    ∧ MediaTypeMutable.String
        { Main := "te xt".toList, Tree := [], Sub := "html".toList, Suf := [],
          Params := [("charset".toList, "utf-8".toList)] } = [] := by
  decide

/-- Claim C14, amended: for every model in which some parameter name cannot be
encoded (it is not a token), `String` returns the empty string and never a
partial text.  There is no separate error value: for every model the result is
empty exactly when the full type is not legal or some parameter name is not a
token.  Every non-empty result is the full type in lower case followed, for
every parameter in name order, by `; `, the name in lower case and the text
written for its value; that text determines the value, and for a token value
it is `=` and the value, so no parameter is dropped or cut short. -/
theorem String_empty_iff_violation (m : MediaTypeMutable)
    (h : ∃ p ∈ m.Params, isToken p.1 = false) :
    m.String = []
    ∧ (∀ m2 : MediaTypeMutable,
        m2.String = [] ↔ ¬ LegalType m2.FullType ∨ ∃ p ∈ m2.Params, isToken p.1 = false)
    ∧ (∀ (m2 : MediaTypeMutable) (ps : List (Str × Str)), ps.Perm m2.Params →
        ((ps.map Prod.fst).Pairwise fun a b => strLe a b = true ∧ a ≠ b) →
        m2.String ≠ [] →
        m2.String = ToLower m2.FullType ++ ps.flatMap paramOutput)
    ∧ (∀ v w : Str, formatValue v = formatValue w → v = w)
    ∧ (∀ v : Str, isToken v = true → formatValue v = '=' :: v) := by
  have hiff : ∀ m2 : MediaTypeMutable,
      m2.String = [] ↔ ¬ LegalType m2.FullType ∨ ∃ p ∈ m2.Params, isToken p.1 = false :=
    fun m2 => (String_eq_nil_iff m2).trans (formatMediaTypeText_eq_none_iff _ _)
  refine ⟨(hiff m).2 (Or.inr h), hiff, ?_, formatValue_injective, formatValue_of_isToken⟩
  intro m2 ps hperm hsorted hne
  have hok : ¬ (¬ LegalType m2.FullType ∨ ∃ p ∈ m2.Params, isToken p.1 = false) :=
    fun hc => hne ((hiff m2).2 hc)
  simp only [not_or, not_not, not_exists, not_and] at hok
  obtain ⟨hlegal, hnames⟩ := hok
  have hkeys : (ps.map Prod.fst).Perm (m2.Params.map Prod.fst) := hperm.map _
  have hnd2 : (ps.map Prod.fst).Nodup := hsorted.imp (fun hx => hx.2)
  have hnd : (m2.Params.map Prod.fst).Nodup := hkeys.nodup_iff.1 hnd2
  have hsort : sortStrings (m2.Params.map Prod.fst) = ps.map Prod.fst :=
    sortStrings_eq _ _ hkeys hsorted
  have hpar : formatParams m2.Params (ps.map Prod.fst) = some (ps.flatMap paramOutput) :=
    formatParams_full m2.Params hnd ps (fun p hp => by
      refine ⟨hperm.subset hp, ?_⟩
      cases hx : isToken p.1
      · exact absurd hx (hnames p (hperm.subset hp))
      · rfl)
  simp [MediaTypeMutable.String, FormatMediaType, formatMediaTypeText,
    formatType_of_legal _ hlegal, hsort, hpar]

/-- A model with a parameter name that contains a space, as an instance of the
amended C14, and beside it a model with legal names, listed out of order, one
of them with a value that is written in quotes. -/
theorem String_empty_iff_violation_witness :
    (∃ p ∈ [("charset".toList, "utf-8".toList), ("b c".toList, "x".toList)],
        isToken p.1 = false)
    ∧ MediaTypeMutable.String
        { Main := "text".toList, Tree := [], Sub := "html".toList, Suf := [],
          Params := [("charset".toList, "utf-8".toList), ("b c".toList, "x".toList)] }
      = []
    ∧ MediaTypeMutable.String
        { Main := "Text".toList, Tree := [], Sub := "html".toList, Suf := [],
          Params := [("Charset".toList, "utf-8".toList), ("B".toList, "x y".toList)] }
      = "text/html; b=".toList ++ [Char.ofNat 34] ++ "x y".toList ++ [Char.ofNat 34]
          ++ "; charset=utf-8".toList :=
  ⟨⟨("b c".toList, "x".toList), by decide, by decide⟩,
   (String_empty_iff_violation
      { Main := "text".toList, Tree := [], Sub := "html".toList, Suf := [],
        Params := [("charset".toList, "utf-8".toList), ("b c".toList, "x".toList)] }
      ⟨("b c".toList, "x".toList), by decide, by decide⟩).1,
   ((String_empty_iff_violation
      { Main := "text".toList, Tree := [], Sub := "html".toList, Suf := [],
        Params := [("charset".toList, "utf-8".toList), ("b c".toList, "x".toList)] }
      ⟨("b c".toList, "x".toList), by decide, by decide⟩).2.2.1
      { Main := "Text".toList, Tree := [], Sub := "html".toList, Suf := [],
        Params := [("Charset".toList, "utf-8".toList), ("B".toList, "x y".toList)] }
      [("B".toList, "x y".toList), ("Charset".toList, "utf-8".toList)]
      (List.Perm.swap _ _ _) (by decide) (by decide)).trans (by decide)⟩

end MediaType
